import Mathlib

/-!
Verification development for the deepview bounded website crawler
(`src/lib/crawler.ts`).

The TypeScript source is shallowly embedded: strings are `List Char`,
the WHATWG `URL` object is a record of its components together with an
executable parser/serializer for the `scheme://host[:port]/path?search#hash`
shape the crawler manipulates, the JavaScript `Map` is an insertion-ordered
association list, and the network is an explicit oracle (`CrawlEnv`) mapping
each fetched URL to its observed response.  The breadth-first crawl loop is
modelled with explicit fuel; every theorem about the loop quantifies over the
fuel, and concrete executions use enough fuel for the loop to drain.
-/

/-- Strings of the embedded program are lists of characters. -/
abbrev Str := List Char

/-- ASCII whitespace recognised by `String.prototype.trim`. -/
def isWsChar (c : Char) : Bool :=
  c == ' ' || c == '\t' || c == '\n' || c == '\r'

/-- Embedding of `String.prototype.trim`: drop whitespace from both ends. -/
def trimStr (s : Str) : Str :=
  ((s.dropWhile isWsChar).reverse.dropWhile isWsChar).reverse

/-- ASCII lowercasing of a single character, as performed by
`String.prototype.toLowerCase` on host names. -/
def lowerChar (c : Char) : Char :=
  if c = 'A' then 'a' else if c = 'B' then 'b' else if c = 'C' then 'c'
  else if c = 'D' then 'd' else if c = 'E' then 'e' else if c = 'F' then 'f'
  else if c = 'G' then 'g' else if c = 'H' then 'h' else if c = 'I' then 'i'
  else if c = 'J' then 'j' else if c = 'K' then 'k' else if c = 'L' then 'l'
  else if c = 'M' then 'm' else if c = 'N' then 'n' else if c = 'O' then 'o'
  else if c = 'P' then 'p' else if c = 'Q' then 'q' else if c = 'R' then 'r'
  else if c = 'S' then 's' else if c = 'T' then 't' else if c = 'U' then 'u'
  else if c = 'V' then 'v' else if c = 'W' then 'w' else if c = 'X' then 'x'
  else if c = 'Y' then 'y' else if c = 'Z' then 'z' else c

/-- Embedding of `String.prototype.toLowerCase`. -/
def lowerStr (s : Str) : Str := s.map lowerChar

/-- Characters allowed in a URL scheme (after the leading letter). -/
def isSchemeChar (c : Char) : Bool :=
  c.isAlpha || c.isDigit || c == '+' || c == '-' || c == '.'

/-- Characters that terminate the authority (host/port) section. -/
def authStopChar (c : Char) : Bool :=
  c == '/' || c == '?' || c == '#'

/-- Characters that terminate the path section. -/
def pathStopChar (c : Char) : Bool :=
  c == '?' || c == '#'

/-- Characters admissible inside a hostname (complement of the WHATWG
forbidden host code points that are relevant to this embedding). -/
def isHostChar (c : Char) : Bool :=
  !(c == ' ' || c == '\t' || c == '\n' || c == '\r' || c == '#' || c == '%' ||
    c == '/' || c == ':' || c == '<' || c == '>' || c == '?' || c == '@' ||
    c == '[' || c == '\\' || c == ']' || c == '^' || c == '|')

/-- Embedding of the WHATWG `URL` object: the components the crawler reads
and writes.  `port = []` means no explicit port. -/
structure URL where
  scheme : Str
  host : Str
  port : Str
  pathname : Str
  search : Str
  hash : Str
deriving DecidableEq, Repr

/-- Scheme section of an absolute URL: the leading run of scheme characters,
which must be non-empty, start with a letter, and be followed by `://`;
returns the raw scheme and the remainder after `://`. -/
def splitScheme (s : Str) : Option (Str × Str) :=
  let raw := s.takeWhile isSchemeChar
  let rest := s.dropWhile isSchemeChar
  match raw, rest with
  | c :: _, ':' :: '/' :: '/' :: rest2 => if c.isAlpha then some (raw, rest2) else none
  | _, _ => none

/-- Authority section: everything up to the first `/`, `?` or `#`, plus the
remainder. -/
def splitAuthority (rest2 : Str) : Str × Str :=
  (rest2.takeWhile (fun ch => !authStopChar ch),
   rest2.dropWhile (fun ch => !authStopChar ch))

/-- Host and port of an authority: split at the first `:`; the host must be
non-empty and contain only host characters, the port only digits. -/
def parseHostPort (auth : Str) : Option (Str × Str) :=
  let rawHost := auth.takeWhile (fun ch => ch != ':')
  let portPart := auth.dropWhile (fun ch => ch != ':')
  if rawHost = [] then none
  else if !rawHost.all isHostChar then none
  else
    match portPart with
    | [] => some (rawHost, [])
    | _ :: ds => if ds.all Char.isDigit then some (rawHost, ds) else none

/-- Path, search and hash sections; an empty path is normalized to `/`. -/
def parsePathEtc (rest3 : Str) : Str × Str × Str :=
  let pathRaw := rest3.takeWhile (fun ch => !pathStopChar ch)
  let rest4 := rest3.dropWhile (fun ch => !pathStopChar ch)
  let pathname := if pathRaw = [] then ['/'] else pathRaw
  let search :=
    match rest4 with
    | '?' :: r => r.takeWhile (fun ch => ch != '#')
    | _ => []
  let hash :=
    match rest4 with
    | '?' :: r =>
      (match r.dropWhile (fun ch => ch != '#') with
       | _ :: h => h
       | [] => [])
    | '#' :: h => h
    | _ => []
  (pathname, search, hash)

/-- Embedding of `new URL(s)` for absolute URLs of the
`scheme://host[:port][/path][?search][#hash]` shape; `none` models the
constructor throwing on unparseable input.  Scheme and host are
lowercased. -/
def parseURL (s : Str) : Option URL :=
  match splitScheme s with
  | none => none
  | some (rawScheme, rest2) =>
    let ar := splitAuthority rest2
    match parseHostPort ar.1 with
    | none => none
    | some (rawHost, port) =>
      let pse := parsePathEtc ar.2
      some ⟨lowerStr rawScheme, lowerStr rawHost, port, pse.1, pse.2.1, pse.2.2⟩

/-- Embedding of `URL.prototype.toString`. -/
def serializeURL (u : URL) : Str :=
  u.scheme ++ ':' :: '/' :: '/' ::
    (u.host ++
     (if u.port = [] then [] else ':' :: u.port) ++
     u.pathname ++
     (if u.search = [] then [] else '?' :: u.search) ++
     (if u.hash = [] then [] else '#' :: u.hash))

/-- Embedding of `.replace(/\/$/, "")`: strip one trailing slash. -/
def stripTrailSlash (s : Str) : Str :=
  if s.getLast? = some '/' then s.dropLast else s

/-- Embedding of `normalizeDomain` (crawler.ts, lines 30-38): trim, prefix
`https://` when the input does not start with `http`, parse, clear hash,
search and path, serialize and drop the trailing slash. -/
def normalizeDomain (input : Str) : Option Str :=
  let trimmed := trimStr input
  let withScheme :=
    if (['h', 't', 't', 'p'] : Str).isPrefixOf trimmed then trimmed
    else ('h' :: 't' :: 't' :: 'p' :: 's' :: ':' :: '/' :: '/' :: []) ++ trimmed
  match parseURL withScheme with
  | none => none
  | some url =>
    some (stripTrailSlash (serializeURL
      { url with hash := [], search := [], pathname := ['/'] }))




/-! ## Path helpers (crawler.ts, lines 40-69) -/

/-- Source constant `MAX_DEPTH` (crawler.ts, line 27). -/
def MAX_DEPTH : Nat := 5

/-- Source constant `MAX_PAGES` (crawler.ts, line 28). -/
def MAX_PAGES : Nat := 80

/-- Embedding of `cleanPath` (lines 40-42): pathname with one trailing slash
removed, the empty result coerced to `"/"`. -/
def cleanPath (u : URL) : Str :=
  let p := stripTrailSlash u.pathname
  if p = [] then ['/'] else p

/-- Character admissible unchanged in a node id: `[a-zA-Z0-9-_]`. -/
def idChar (c : Char) : Bool :=
  c.isAlpha || c.isDigit || c == '-' || c == '_'

/-- Embedding of `makeNodeId` (lines 44-47): `"root"` for `/`, otherwise
`node-` followed by the path with every other character replaced by `-`. -/
def makeNodeId (path : Str) : Str :=
  if path = ['/'] then 'r' :: 'o' :: 'o' :: 't' :: []
  else
    let s := path.map (fun c => if idChar c then c else '-')
    ('n' :: 'o' :: 'd' :: 'e' :: '-' :: []) ++
      (if s = [] then 'r' :: 'o' :: 'o' :: 't' :: [] else s)

/-- Embedding of `String.prototype.split("/")`. -/
def splitSlash (s : Str) : List Str :=
  match s with
  | [] => [[]]
  | c :: rest =>
    let tail := splitSlash rest
    if c = '/' then [] :: tail
    else
      match tail with
      | h :: t => (c :: h) :: t
      | [] => [[c]]

/-- Embedding of `pathSegments` (lines 49-52): `[]` for `/`, otherwise drop
one leading slash, split on `/`, keep the non-empty segments. -/
def pathSegments (path : Str) : List Str :=
  if path = ['/'] then []
  else
    let stripped := match path with
      | '/' :: rest => rest
      | other => other
    (splitSlash stripped).filter (fun seg => seg ≠ [])

/-- Embedding of `Array.prototype.join("/")` for path segments. -/
def joinSlash : List Str → Str
  | [] => []
  | [s] => s
  | s :: rest => s ++ '/' :: joinSlash rest

/-- Embedding of `parentPath` (lines 54-59). -/
def parentPath (path : Str) : Option Str :=
  let segs := pathSegments path
  if segs.length = 0 then none
  else if segs.length = 1 then some ['/']
  else some ('/' :: joinSlash (segs.dropLast))

/-- Embedding of `stripWww` (lines 61-63): remove one leading `www.`,
matched case-insensitively. -/
def stripWww (host : Str) : Str :=
  if (['w', 'w', 'w', '.'] : Str).isPrefixOf (lowerStr host) then host.drop 4
  else host

/-- Embedding of `matchesHost` (lines 65-69). -/
def matchesHost (host rootHost : Str) : Bool :=
  stripWww (lowerStr host) == stripWww (lowerStr rootHost)

/-- Canonical form of a hostname under `matchesHost`. -/
def canonHost (host : Str) : Str :=
  stripWww (lowerStr host)


/-! ## Page registry (crawler.ts, lines 13-19 and 115-128)

The JavaScript `Map` keyed by normalized path is embedded as an
insertion-ordered association list: `set` on a present key updates the entry
in place, `set` on an absent key appends, and key iteration follows the
list order, exactly as `Map` iteration follows insertion order. -/

/-- Embedding of the `PageInfo` record (lines 13-19). -/
structure PageInfo where
  path : Str
  url : URL
  title : Option Str
  statusCode : Option Nat
  unreachable : Option Bool
deriving DecidableEq, Repr

instance : Inhabited URL := ⟨⟨[], [], [], [], [], []⟩⟩

instance : Inhabited PageInfo := ⟨⟨[], default, none, none, none⟩⟩

/-- The page registry: insertion-ordered map from path to `PageInfo`. -/
abbrev PageMap := List (Str × PageInfo)

/-- Embedding of `Map.prototype.get`. -/
def mapGet (m : PageMap) (k : Str) : Option PageInfo :=
  match m with
  | [] => none
  | e :: rest => if e.1 = k then some e.2 else mapGet rest k

/-- Embedding of `Map.prototype.set`. -/
def mapSet (m : PageMap) (k : Str) (v : PageInfo) : PageMap :=
  match m with
  | [] => [(k, v)]
  | e :: rest => if e.1 = k then (k, v) :: rest else e :: mapSet rest k v

/-- Embedding of `Map.prototype.has`. -/
def mapHas (m : PageMap) (k : Str) : Bool :=
  (mapGet m k).isSome

/-- Embedding of `Array.from(map.keys())`. -/
def mapKeys (m : PageMap) : List Str :=
  m.map Prod.fst

/-- Embedding of the `addPage` closure (lines 117-128): drop foreign hosts,
then merge — a new title wins only when truthy, and `statusCode` and
`unreachable` are always carried over from the existing entry. -/
def addPage (rootHost : Str) (pages : PageMap) (url : URL) (title : Option Str) : PageMap :=
  if !matchesHost url.host rootHost then pages
  else
    let path := cleanPath url
    let existing := mapGet pages path
    mapSet pages path
      { path := path
        url := url
        title :=
          match title with
          | some t => if t = [] then existing.bind (fun e => e.title) else some t
          | none => existing.bind (fun e => e.title)
        statusCode := existing.bind (fun e => e.statusCode)
        unreachable := existing.bind (fun e => e.unreachable) }

/-! ## Network oracles

The crawler's `fetch` calls are the only interaction with the outside
world.  They are embedded as explicit oracles: `fetchPage` returns `none`
when `fetch` throws, and otherwise the observed response — status, `res.ok`,
the hostname of `res.url` (`none` when unparseable), the text content of the
first `<title>` element, and the outbound `<a href>` targets already
resolved against the current URL, exactly the data the loop body reads. -/

/-- Observed response for one page fetch (lines 153-188). -/
structure FetchResp where
  ok : Bool
  status : Nat
  finalHost : Option Str
  titleText : Str
  links : List URL
deriving DecidableEq, Repr

/-- Observed response for one sitemap candidate fetch (lines 75-100):
`res.ok` and the trimmed text of each `<loc>` element. -/
structure SitemapResp where
  ok : Bool
  locs : List Str
deriving DecidableEq, Repr

/-- The network environment of one crawl. -/
structure CrawlEnv where
  fetchPage : URL → Option FetchResp
  fetchSitemap : URL → Option SitemapResp

/-- Embedding of `new URL(path, base)` for an absolute path against the
root: keep the origin, take the given path, clear search and hash. -/
def resolveOnRoot (base : URL) (path : Str) : URL :=
  { scheme := base.scheme, host := base.host, port := base.port
    pathname := path, search := [], hash := [] }

/-- Collecting the `<loc>` entries of one sitemap response (lines 83-96):
parse each as an absolute URL, clear hash and search, keep same-host ones. -/
def collectLocs (rootHost : Str) (locs : List Str) (acc : List URL) : List URL :=
  match locs with
  | [] => acc
  | loc :: rest =>
    let t := trimStr loc
    if t = [] then collectLocs rootHost rest acc
    else
      match parseURL t with
      | none => collectLocs rootHost rest acc
      | some u =>
        let u := { u with hash := [], search := [] }
        if matchesHost u.host rootHost then collectLocs rootHost rest (acc ++ [u])
        else collectLocs rootHost rest acc

/-- Candidate loop of `fetchSitemapUrls` (lines 75-101). -/
def sitemapGo (env : CrawlEnv) (rootHost : Str) :
    List URL → List URL → List URL
  | [], urls => urls
  | c :: rest, urls =>
    match env.fetchSitemap c with
    | none => sitemapGo env rootHost rest urls
    | some resp =>
      if !resp.ok then sitemapGo env rootHost rest urls
      else
        let urls' := collectLocs rootHost resp.locs urls
        if urls'.length ≠ 0 then urls'
        else sitemapGo env rootHost rest urls'

/-- Embedding of `fetchSitemapUrls` (lines 71-104): try `/sitemap.xml` then
`/sitemap_index.xml`, stop at the first candidate that yields URLs, and
truncate the result to `MAX_PAGES`. -/
def fetchSitemapUrls (env : CrawlEnv) (root : URL) : List URL :=
  let candidates :=
    [resolveOnRoot root ("/sitemap.xml".toList),
     resolveOnRoot root ("/sitemap_index.xml".toList)]
  (sitemapGo env root.host candidates []).take MAX_PAGES

/-! ## The crawl loop (crawler.ts, lines 137-204) -/

/-- Mutable state of the `while` loop: the working host (reassigned on
redirects), the page registry, the FIFO queue and the processed set. -/
structure CrawlState where
  rootHost : Str
  pages : PageMap
  queue : List URL
  processed : List Str
deriving Repr

/-- Embedding of the inner `for (const link of links)` loop
(lines 192-200): skip foreign hosts and too-deep paths, stop at the page
budget, otherwise register and enqueue. -/
def addLinks (rootHost : Str) (depthLimit : Nat) :
    List URL → PageMap → List URL → PageMap × List URL
  | [], pages, queue => (pages, queue)
  | link :: rest, pages, queue =>
    if !matchesHost link.host rootHost then addLinks rootHost depthLimit rest pages queue
    else
      let childPath := cleanPath link
      let childDepth := (pathSegments childPath).length
      if childDepth > depthLimit then addLinks rootHost depthLimit rest pages queue
      else if MAX_PAGES ≤ pages.length then (pages, queue)
      else addLinks rootHost depthLimit rest (addPage rootHost pages link none) (queue ++ [link])

/-- Embedding of the `while (queue.length && pages.size < MAX_PAGES)` loop
(lines 141-204), with explicit fuel.  Each iteration pops the queue head,
discards too-deep or already-processed paths, and otherwise fetches: a
thrown fetch is ignored, a non-2xx response marks the entry unreachable with
the observed status, and a success adopts a same-host redirect hostname,
merges the parsed title, and registers and enqueues the extracted links. -/
def crawlLoop (env : CrawlEnv) (depthLimit : Nat) : Nat → CrawlState → CrawlState
  | 0, st => st
  | fuel + 1, st =>
    match st.queue with
    | [] => st
    | current :: rest =>
      if !(st.pages.length < MAX_PAGES) then st
      else
        let st1 : CrawlState :=
          { rootHost := st.rootHost, pages := st.pages, queue := rest
            processed := st.processed }
        let path := cleanPath current
        let depth := (pathSegments path).length
        if depth > depthLimit then crawlLoop env depthLimit fuel st1
        else if path ∈ st1.processed then crawlLoop env depthLimit fuel st1
        else
          let st2 : CrawlState := { st1 with processed := path :: st1.processed }
          match env.fetchPage current with
          | none => crawlLoop env depthLimit fuel st2
          | some res =>
            if !res.ok then
              let st3 : CrawlState :=
                match mapGet st2.pages path with
                | some info =>
                  { st2 with pages := (mapSet st2.pages path
                      { info with statusCode := some res.status, unreachable := some true }) }
                | none => st2
              crawlLoop env depthLimit fuel st3
            else
              let rootHost' :=
                match res.finalHost with
                | some fh => if matchesHost fh st2.rootHost then fh else st2.rootHost
                | none => st2.rootHost
              let title :=
                let t := trimStr res.titleText
                if t = [] then none else some t
              let links := res.links.map (fun u => { u with hash := [], search := [] })
              let pages1 := addPage rootHost' st2.pages current title
              let pq := addLinks rootHost' depthLimit links pages1 st2.queue
              crawlLoop env depthLimit fuel
                { rootHost := rootHost', pages := pq.1, queue := pq.2
                  processed := st2.processed }

/-! ## Hierarchy reconciliation (crawler.ts, lines 206-225) -/

/-- Entry synthesized for a missing ancestor (lines 212-219): derived title,
status 404, unreachable. -/
def placeholderEntry (rootHost : Str) (rootUrl : URL) (parent : Str) : PageInfo :=
  { path := parent
    url := resolveOnRoot rootUrl parent
    title :=
      if parent = ['/'] then some rootHost
      else
        match (splitSlash parent).getLast? with
        | some seg => if seg = [] then some parent else some seg
        | none => some parent
    statusCode := some 404
    unreachable := some true }

/-- The `while (parent)` walk of `ensureAncestors` (lines 209-222), with the
segment count of the starting path as (always sufficient) fuel. -/
def ensureLoop (rootHost : Str) (rootUrl : URL) :
    Nat → PageMap → Option Str → PageMap
  | _, m, none => m
  | 0, m, some _ => m
  | fuel + 1, m, some parent =>
    let m' := if mapHas m parent then m else mapSet m parent (placeholderEntry rootHost rootUrl parent)
    ensureLoop rootHost rootUrl fuel m' (parentPath parent)

/-- Embedding of `ensureAncestors` for one path (lines 208-223). -/
def ensureAncestors (rootHost : Str) (rootUrl : URL) (m : PageMap) (p : Str) : PageMap :=
  ensureLoop rootHost rootUrl (pathSegments p).length m (parentPath p)

/-- Embedding of line 225: run `ensureAncestors` over a snapshot of the
registered keys. -/
def reconcile (rootHost : Str) (rootUrl : URL) (m : PageMap) : PageMap :=
  (mapKeys m).foldl (fun acc p => ensureAncestors rootHost rootUrl acc p) m

/-! ## Graph assembly (crawler.ts, lines 227-298) -/

/-- Embedding of the data carried by a React Flow node (lines 4-10);
the constant `position` and `type` fields are omitted. -/
structure FlowNode where
  id : Str
  label : Str
  path : Str
  isRoot : Option Bool
  statusCode : Option Nat
  unreachable : Option Bool
deriving DecidableEq, Repr

/-- Embedding of a React Flow edge (line 11); constant style fields
omitted. -/
structure FlowEdge where
  id : Str
  source : Str
  target : Str
deriving DecidableEq, Repr

/-- Embedding of `CrawlResult` (lines 21-25). -/
structure CrawlResult where
  domain : Str
  nodes : List FlowNode
  edges : List FlowEdge
deriving DecidableEq, Repr

/-- Label truncation of line 271: at most 40 characters plus an ellipsis. -/
def truncateLabel (label : Str) : Str :=
  if label.length > 40 then label.take 40 ++ ['…'] else label

/-- Node built for one registry entry (lines 260-279). -/
def mkNode (rootUrl : URL) (path : Str) (info : PageInfo) : FlowNode :=
  let segs := pathSegments path
  let depth := segs.length
  let base :=
    match info.title with
    | some t => t
    | none => match segs.getLast? with
              | some seg => seg
              | none => rootUrl.host
  let label := if base = [] then "Page".toList else base
  { id := makeNodeId path
    label := truncateLabel label
    path := path
    isRoot := some (depth = 0)
    statusCode := info.statusCode
    unreachable := info.unreachable }

/-- Edge built for one parent/child path pair (lines 281-291). -/
def mkEdge (parent child : Str) : FlowEdge :=
  let parentId := makeNodeId parent
  let nodeId := makeNodeId child
  { id := ('e' :: '-' :: []) ++ parentId ++ '-' :: nodeId
    source := parentId
    target := nodeId }

/-- The hard-coded fallback graph returned when the registry holds only the
root (lines 231-258): a root node plus one synthetic child, both carrying
path `/`. -/
def emptyFallback (hostname : Str) : CrawlResult :=
  { domain := hostname
    nodes :=
      [{ id := "root".toList, label := hostname, path := ['/']
         isRoot := some true, statusCode := none, unreachable := none },
       { id := "node-empty".toList, label := "Keine Links gefunden".toList, path := ['/']
         isRoot := none, statusCode := none, unreachable := none }]
    edges :=
      [{ id := "e-root-empty".toList, source := "root".toList
         target := "node-empty".toList }] }

/-- Embedding of the final assembly (lines 227-298). -/
def assemble (rootUrl : URL) (rootHost : Str) (m : PageMap) : CrawlResult :=
  let allPaths := mapKeys m
  if allPaths.length = 1 then emptyFallback rootUrl.host
  else
    { domain := rootHost
      nodes := allPaths.filterMap (fun p => (mapGet m p).map (mkNode rootUrl p))
      edges := allPaths.filterMap (fun p => (parentPath p).map (fun q => mkEdge q p)) }

/-- Discovery: register the root, seed the sitemap URLs, run the crawl
loop (lines 130-204). -/
def runDiscovery (env : CrawlEnv) (rootUrl : URL) (depthLimit : Nat) (fuel : Nat) :
    CrawlState :=
  let rootHost := rootUrl.host
  let pages0 := addPage rootHost [] rootUrl none
  let sitemapUrls := fetchSitemapUrls env rootUrl
  let pages1 := sitemapUrls.foldl (fun m u => addPage rootHost m u none) pages0
  crawlLoop env depthLimit fuel
    { rootHost := rootHost, pages := pages1, queue := [rootUrl], processed := [] }

/-- The crawl after URL normalization: discovery, reconciliation,
assembly. -/
def crawlCore (env : CrawlEnv) (rootUrl : URL) (maxDepth : Int) (fuel : Nat) :
    CrawlResult :=
  let depthLimit := (min (max 1 maxDepth) (MAX_DEPTH : Int)).toNat
  let st := runDiscovery env rootUrl depthLimit fuel
  assemble rootUrl st.rootHost (reconcile st.rootHost rootUrl st.pages)

/-- Embedding of `crawlDomain` (lines 106-299).  `maxDepth` is the
already-floored caller input; `none` models the thrown `InvalidInput`
error when the domain cannot be normalized. -/
def crawlDomain (env : CrawlEnv) (domain : Str) (maxDepth : Int) (fuel : Nat) :
    Option CrawlResult :=
  match normalizeDomain domain with
  | none => none
  | some normalized =>
    match parseURL normalized with
    | none => none
    | some rootUrl => some (crawlCore env rootUrl maxDepth fuel)

/-! ## Concrete crawl environments

Small fully-concrete networks used to evaluate the pipeline on closed
inputs.  `exDomain` is the caller input, `exHost` the resulting hostname,
and `exURL p` a same-host URL with path `p`. -/

/-- Concrete caller input. -/
def exDomain : Str := "example.com".toList

/-- Hostname of the concrete root. -/
def exHost : Str := "example.com".toList

/-- Same-host URL with the given path. -/
def exURL (p : Str) : URL :=
  ⟨"https".toList, exHost, [], p, [], []⟩

/-- Network where the root answers 404 and no sitemap exists. -/
def envRoot404 : CrawlEnv :=
  { fetchPage := fun u => if u.pathname = ['/'] then some ⟨false, 404, none, [], []⟩ else none
    fetchSitemap := fun _ => none }

/-- Network where the root answers 200 with no outbound links. -/
def envNoLinks : CrawlEnv :=
  { fetchPage := fun u =>
      if u.pathname = ['/'] then some ⟨true, 200, none, "Home".toList, []⟩ else none
    fetchSitemap := fun _ => none }

/-- Network where the root links to `/a/b` and `/a-b`, two paths whose
sanitized node ids coincide. -/
def envCollide : CrawlEnv :=
  { fetchPage := fun u =>
      if u.pathname = ['/'] then
        some ⟨true, 200, none, "Home".toList, [exURL ("/a/b".toList), exURL ("/a-b".toList)]⟩
      else none
    fetchSitemap := fun _ => none }

/-- Network with an unreachable root but a sitemap listing the depth-3 page
`/a/b/c`. -/
def envSitemapDeep : CrawlEnv :=
  { fetchPage := fun _ => none
    fetchSitemap := fun u =>
      if u.pathname = "/sitemap.xml".toList then
        some ⟨true, ["https://example.com/a/b/c".toList]⟩
      else none }

/-- Network whose sitemap lists 80 distinct same-host depth-1 pages. -/
def envBig : CrawlEnv :=
  { fetchPage := fun _ => none
    fetchSitemap := fun u =>
      if u.pathname = "/sitemap.xml".toList then
        some ⟨true, (List.range 80).map (fun i =>
          "https://example.com/".toList ++ [Char.ofNat (97 + i / 9), Char.ofNat (97 + i % 9)])⟩
      else none }

/-- Network where the root answers 200 with title `Hello` and one link
`/x`. -/
def envTitle : CrawlEnv :=
  { fetchPage := fun u =>
      if u.pathname = ['/'] then
        some ⟨true, 200, none, "Hello".toList, [exURL ("/x".toList)]⟩
      else none
    fetchSitemap := fun _ => none }


/-- Serialized port section of a URL (helper for the normalization proofs). -/
def portSer (port : Str) : Str := if port = [] then [] else ':' :: port

/-- Iterated syntactic parents of a path, mirroring the `while (parent)`
walk of `ensureAncestors`; the fuel bounds the walk. -/
def parentChain : Nat → Option Str → List Str
  | _, none => []
  | 0, some _ => []
  | fuel + 1, some q => q :: parentChain fuel (parentPath q)

/-- Concrete seed state: the root registered and queued, nothing processed. -/
def exSeedState : CrawlState :=
  { rootHost := exHost
    pages := addPage exHost [] (exURL ['/']) none
    queue := [exURL ['/']]
    processed := [] }

/-- Concrete registry holding a titled root entry. -/
def titledRegistry : PageMap :=
  [(['/'], { path := ['/'], url := exURL ['/'], title := some ("T".toList),
             statusCode := none, unreachable := none })]

/-- Concrete registry holding the root and a depth-2 page, with the
intermediate `/a` missing. -/
def exDeepRegistry : PageMap :=
  [(['/'], { path := ['/'], url := exURL ['/'], title := none,
             statusCode := none, unreachable := none }),
   ("/a/b".toList, { path := "/a/b".toList, url := exURL ("/a/b".toList), title := none,
                     statusCode := none, unreachable := none })]

/-- The graph produced by the concrete titled network (used as witness
input); the fallback value is never reached. -/
def gTitle : CrawlResult :=
  match crawlDomain envTitle exDomain 1 10 with
  | some g => g
  | none => ⟨[], [], []⟩

/-- The output node for `/x` in `gTitle`. -/
def exChildNode : FlowNode :=
  { id := "node--x".toList, label := "x".toList, path := "/x".toList
    isRoot := some false, statusCode := none, unreachable := none }

/-! ## Sanity checks on the embedded URL layer -/

example : normalizeDomain ("example.com".toList) = some ("https://example.com".toList) := by decide

example : normalizeDomain (" www.Example.com/a?q=1 ".toList) =
    some ("https://www.example.com".toList) := by decide

example : normalizeDomain ("http://example.com:8080/foo?a=1#b".toList) =
    some ("http://example.com:8080".toList) := by decide

example : matchesHost ("www.example.com".toList) ("example.com".toList) = true := by decide

example : matchesHost ("shop.example.com".toList) ("example.com".toList) = false := by decide

example : pathSegments ("/a/b".toList) = ["a".toList, "b".toList] := by decide

example : parentPath ("/a/b".toList) = some ("/a".toList) := by decide

example : parentPath ("/a".toList) = some ("/".toList) := by decide

example : parentPath ("/".toList) = none := by decide

example : makeNodeId ("/a/b".toList) = "node--a-b".toList := by decide

example : makeNodeId ("/a-b".toList) = "node--a-b".toList := by decide
/-! ## Registry lemmas -/

lemma mapGet_isSome_iff_mem (m : PageMap) (k : Str) :
    (mapGet m k).isSome = true ↔ k ∈ mapKeys m := by
  induction m with
  | nil => simp [mapGet, mapKeys]
  | cons e rest ih =>
    rw [mapGet, mapKeys]
    by_cases h : e.1 = k
    · simp [h]
    · simp only [h, if_false, List.map_cons, List.mem_cons]
      rw [mapKeys] at ih
      simp [ih]
      exact fun he => (h he.symm).elim

lemma mem_keys_of_mapGet {m : PageMap} {k : Str} {v : PageInfo}
    (h : mapGet m k = some v) : k ∈ mapKeys m := by
  rw [← mapGet_isSome_iff_mem, h]
  rfl

lemma mapGet_eq_none_of_not_mem {m : PageMap} {k : Str}
    (h : k ∉ mapKeys m) : mapGet m k = none := by
  cases hg : mapGet m k with
  | none => rfl
  | some v => exact (h (mem_keys_of_mapGet hg)).elim

lemma mem_keys_mapSet {m : PageMap} {k p : Str} {v : PageInfo}
    (h : p ∈ mapKeys (mapSet m k v)) : p ∈ mapKeys m ∨ p = k := by
  induction m with
  | nil => simpa [mapSet, mapKeys] using h
  | cons e rest ih =>
    by_cases hk : e.1 = k
    · rw [mapSet] at h
      simp only [hk, if_true, mapKeys, List.map_cons, List.mem_cons] at h ⊢
      tauto
    · rw [mapSet] at h
      simp only [hk, if_false, mapKeys, List.map_cons, List.mem_cons] at h ⊢
      rcases h with h | h
      · tauto
      · rcases ih h with h' | h' <;> tauto

lemma mapKeys_mapSet_of_mem {m : PageMap} {k : Str} (v : PageInfo)
    (h : k ∈ mapKeys m) : mapKeys (mapSet m k v) = mapKeys m := by
  induction m with
  | nil => simp [mapKeys] at h
  | cons e rest ih =>
    by_cases hk : e.1 = k
    · rw [mapSet]
      simp [hk, mapKeys]
    · simp only [mapKeys, List.map_cons, List.mem_cons] at h ih ⊢
      rcases h with h | h
      · exact (hk h.symm).elim
      · rw [mapSet]
        simp only [hk, if_false, List.map_cons, List.cons.injEq, true_and]
        exact ih h

lemma mapKeys_mapSet_of_not_mem {m : PageMap} {k : Str} (v : PageInfo)
    (h : k ∉ mapKeys m) : mapKeys (mapSet m k v) = mapKeys m ++ [k] := by
  induction m with
  | nil => simp [mapSet, mapKeys]
  | cons e rest ih =>
    simp only [mapKeys, List.map_cons, List.mem_cons] at h
    push_neg at h
    by_cases hk : e.1 = k
    · exact (h.1 hk.symm).elim
    · rw [mapSet]
      simp only [mapKeys, List.map_cons] at ih ⊢
      simp only [hk, if_false, List.map_cons, List.cons_append, List.cons.injEq, true_and]
      exact ih h.2

lemma length_eq_length_mapKeys (m : PageMap) : m.length = (mapKeys m).length := by
  simp [mapKeys]

lemma length_mapSet_of_mem {m : PageMap} {k : Str} (v : PageInfo)
    (h : k ∈ mapKeys m) : (mapSet m k v).length = m.length := by
  rw [length_eq_length_mapKeys, length_eq_length_mapKeys m,
    mapKeys_mapSet_of_mem v h]

lemma length_mapSet_le (m : PageMap) (k : Str) (v : PageInfo) :
    (mapSet m k v).length ≤ m.length + 1 := by
  by_cases h : k ∈ mapKeys m
  · simp [length_mapSet_of_mem v h]
  · rw [length_eq_length_mapKeys, length_eq_length_mapKeys m,
      mapKeys_mapSet_of_not_mem v h]
    simp

lemma nodup_mapKeys_mapSet {m : PageMap} {k : Str} (v : PageInfo)
    (h : (mapKeys m).Nodup) : (mapKeys (mapSet m k v)).Nodup := by
  by_cases hm : k ∈ mapKeys m
  · rwa [mapKeys_mapSet_of_mem v hm]
  · rw [mapKeys_mapSet_of_not_mem v hm]
    rw [List.nodup_append]
    refine ⟨h, List.nodup_singleton k, fun a ha hb => ?_⟩
    simp only [List.mem_singleton] at hb
    exact hm (hb ▸ ha)

lemma mapGet_mapSet_self (m : PageMap) (k : Str) (v : PageInfo) :
    mapGet (mapSet m k v) k = some v := by
  induction m with
  | nil => simp [mapSet, mapGet]
  | cons e rest ih =>
    by_cases hk : e.1 = k
    · rw [mapSet]
      simp [hk, mapGet]
    · rw [mapSet]
      simp only [hk, if_false]
      rw [mapGet]
      simp [hk, ih]

lemma mapGet_mapSet_ne (m : PageMap) {k p : Str} (v : PageInfo) (h : p ≠ k) :
    mapGet (mapSet m k v) p = mapGet m p := by
  have hkp : ¬(k = p) := fun he => h he.symm
  induction m with
  | nil =>
    rw [mapSet, mapGet, mapGet]
    simp [hkp, mapGet]
  | cons e rest ih =>
    by_cases hk : e.1 = k
    · rw [mapSet]
      simp only [hk, if_true]
      rw [mapGet, mapGet]
      simp only [hk]
      simp [hkp]
    · rw [mapSet]
      simp only [hk, if_false]
      rw [mapGet, mapGet, ih]

/-! ## addPage and addLinks lemmas -/

lemma mem_keys_addPage {rh : Str} {m : PageMap} {u : URL} {t : Option Str} {p : Str}
    (h : p ∈ mapKeys (addPage rh m u t)) : p ∈ mapKeys m ∨ p = cleanPath u := by
  unfold addPage at h
  split at h
  · exact Or.inl h
  · exact mem_keys_mapSet h

lemma length_addPage_le (rh : Str) (m : PageMap) (u : URL) (t : Option Str) :
    (addPage rh m u t).length ≤ m.length + 1 := by
  unfold addPage
  split
  · omega
  · exact length_mapSet_le m _ _

lemma nodup_keys_addPage (rh : Str) (m : PageMap) (u : URL) (t : Option Str)
    (h : (mapKeys m).Nodup) : (mapKeys (addPage rh m u t)).Nodup := by
  unfold addPage
  split
  · exact h
  · exact nodup_mapKeys_mapSet _ h

lemma mapGet_addPage_of_matches {rh : Str} {m : PageMap} {u : URL} {t : Option Str}
    (hm : matchesHost u.host rh = true) :
    mapGet (addPage rh m u t) (cleanPath u) =
      some { path := cleanPath u
             url := u
             title :=
               match t with
               | some s => if s = [] then (mapGet m (cleanPath u)).bind (fun e => e.title) else some s
               | none => (mapGet m (cleanPath u)).bind (fun e => e.title)
             statusCode := (mapGet m (cleanPath u)).bind (fun e => e.statusCode)
             unreachable := (mapGet m (cleanPath u)).bind (fun e => e.unreachable) } := by
  unfold addPage
  simp only [hm, Bool.not_true, Bool.false_eq_true, if_false]
  exact mapGet_mapSet_self m _ _

lemma mem_keys_addLinks {rh : Str} {dl : Nat} {links : List URL} {pages : PageMap}
    {queue : List URL} {p : Str}
    (h : p ∈ mapKeys (addLinks rh dl links pages queue).1) :
    p ∈ mapKeys pages ∨ (pathSegments p).length ≤ dl := by
  induction links generalizing pages queue with
  | nil => exact Or.inl h
  | cons link rest ih =>
    simp only [addLinks] at h
    split at h
    · exact ih h
    · split at h
      · exact ih h
      · split at h
        · exact Or.inl h
        · rcases ih h with h' | h'
          · rcases mem_keys_addPage h' with h'' | h''
            · exact Or.inl h''
            · subst h''
              right
              omega
          · exact Or.inr h'

lemma length_addLinks_le {rh : Str} {dl : Nat} {links : List URL} {pages : PageMap}
    {queue : List URL} (h : pages.length ≤ MAX_PAGES) :
    (addLinks rh dl links pages queue).1.length ≤ MAX_PAGES := by
  induction links generalizing pages queue with
  | nil => exact h
  | cons link rest ih =>
    simp only [addLinks]
    split
    · exact ih h
    · split
      · exact ih h
      · split
        · exact h
        · rename_i hlt
          refine ih ?_
          have := length_addPage_le rh pages link none
          omega

lemma nodup_keys_addLinks {rh : Str} {dl : Nat} {links : List URL} {pages : PageMap}
    {queue : List URL} (h : (mapKeys pages).Nodup) :
    (mapKeys (addLinks rh dl links pages queue).1).Nodup := by
  induction links generalizing pages queue with
  | nil => exact h
  | cons link rest ih =>
    simp only [addLinks]
    split
    · exact ih h
    · split
      · exact ih h
      · split
        · exact h
        · exact ih (nodup_keys_addPage _ _ _ _ h)

/-! ## Crawl loop invariants -/

lemma crawlLoop_keys (env : CrawlEnv) (dl fuel : Nat) (st : CrawlState) {p : Str}
    (h : p ∈ mapKeys (crawlLoop env dl fuel st).pages) :
    p ∈ mapKeys st.pages ∨ (pathSegments p).length ≤ dl := by
  induction fuel generalizing st with
  | zero => exact Or.inl h
  | succ n ih =>
    rw [crawlLoop] at h
    cases hq : st.queue with
    | nil =>
      rw [hq] at h
      exact Or.inl h
    | cons current rest =>
      rw [hq] at h
      dsimp only at h
      split at h
      · exact Or.inl h
      · split at h
        · have hr := ih _ h
          exact hr
        · split at h
          · have hr := ih _ h
            exact hr
          · cases hf : env.fetchPage current with
            | none =>
              rw [hf] at h
              dsimp only at h
              have hr := ih _ h
              exact hr
            | some res =>
              rw [hf] at h
              dsimp only at h
              split at h
              · split at h
                · rename_i info heq
                  have hr := ih _ h
                  rcases hr with h' | h'
                  · dsimp only at h'
                    rw [mapKeys_mapSet_of_mem _ (mem_keys_of_mapGet heq)] at h'
                    exact Or.inl h'
                  · exact Or.inr h'
                · have hr := ih _ h
                  exact hr
              · have hr := ih _ h
                rcases hr with h' | h'
                · dsimp only at h'
                  rcases mem_keys_addLinks h' with h'' | h''
                  · rcases mem_keys_addPage h'' with h3 | h3
                    · exact Or.inl h3
                    · subst h3
                      right
                      rename_i hdep _ _
                      omega
                  · exact Or.inr h''
                · exact Or.inr h'

lemma crawlLoop_length (env : CrawlEnv) (dl fuel : Nat) (st : CrawlState) :
    (crawlLoop env dl fuel st).pages.length ≤ max st.pages.length MAX_PAGES := by
  induction fuel generalizing st with
  | zero => exact le_max_left _ _
  | succ n ih =>
    rw [crawlLoop]
    cases hq : st.queue with
    | nil => exact le_max_left _ _
    | cons current rest =>
      dsimp only
      split
      · exact le_max_left _ _
      · rename_i hbud
        have hlt : st.pages.length < MAX_PAGES := by
          by_contra hge
          simp [hge] at hbud
        split
        · exact le_trans (ih _) le_rfl
        · split
          · exact le_trans (ih _) le_rfl
          · cases hf : env.fetchPage current with
            | none => exact le_trans (ih _) le_rfl
            | some res =>
              dsimp only
              split
              · split
                · rename_i info heq
                  refine le_trans (ih _) ?_
                  have hl : (mapSet st.pages (cleanPath current)
                      { info with statusCode := some res.status, unreachable := some true }).length
                      = st.pages.length :=
                    length_mapSet_of_mem _ (mem_keys_of_mapGet heq)
                  dsimp only
                  rw [hl]
                · exact le_trans (ih _) le_rfl
              · refine le_trans (ih _) ?_
                dsimp only
                refine max_le (le_trans ?_ (le_max_right _ _)) (le_max_right _ _)
                refine length_addLinks_le ?_
                have := length_addPage_le
                  (match res.finalHost with
                   | some fh => if matchesHost fh st.rootHost = true then fh else st.rootHost
                   | none => st.rootHost)
                  st.pages current
                  (if trimStr res.titleText = [] then none
                   else some (trimStr res.titleText))
                omega

lemma nodup_keys_crawlLoop (env : CrawlEnv) (dl fuel : Nat) (st : CrawlState)
    (h : (mapKeys st.pages).Nodup) :
    (mapKeys (crawlLoop env dl fuel st).pages).Nodup := by
  induction fuel generalizing st with
  | zero => exact h
  | succ n ih =>
    rw [crawlLoop]
    cases hq : st.queue with
    | nil => exact h
    | cons current rest =>
      dsimp only
      split
      · exact h
      · split
        · exact ih _ h
        · split
          · exact ih _ h
          · cases hf : env.fetchPage current with
            | none => exact ih _ h
            | some res =>
              dsimp only
              split
              · split
                · rename_i info heq
                  refine ih _ ?_
                  dsimp only
                  rw [mapKeys_mapSet_of_mem _ (mem_keys_of_mapGet heq)]
                  exact h
                · exact ih _ h
              · refine ih _ ?_
                dsimp only
                exact nodup_keys_addLinks (nodup_keys_addPage _ _ _ _ h)

lemma canonHost_of_matches {a b : Str} (h : matchesHost a b = true) :
    canonHost a = canonHost b := eq_of_beq h

lemma crawlLoop_canonHost (env : CrawlEnv) (dl fuel : Nat) (st : CrawlState) :
    canonHost (crawlLoop env dl fuel st).rootHost = canonHost st.rootHost := by
  induction fuel generalizing st with
  | zero => rfl
  | succ n ih =>
    rw [crawlLoop]
    cases hq : st.queue with
    | nil => rfl
    | cons current rest =>
      dsimp only
      split
      · rfl
      · split
        · exact ih _
        · split
          · exact ih _
          · cases hf : env.fetchPage current with
            | none => exact ih _
            | some res =>
              dsimp only
              split
              · split <;> exact ih _
              · rw [ih]
                dsimp only
                cases hfh : res.finalHost with
                | none => rfl
                | some fh =>
                  dsimp only
                  by_cases hm : matchesHost fh st.rootHost
                  · simp only [hm, if_true]
                    exact canonHost_of_matches hm
                  · simp only [hm, Bool.false_eq_true, if_false]

lemma bind_statusCode_addPage (rh : Str) (m : PageMap) (u : URL) (t : Option Str) (p : Str) :
    (mapGet (addPage rh m u t) p).bind (fun x => x.statusCode) =
      (mapGet m p).bind (fun x => x.statusCode) := by
  unfold addPage
  split
  · rfl
  · by_cases hp : p = cleanPath u
    · subst hp
      rw [mapGet_mapSet_self]
      cases mapGet m (cleanPath u) <;> rfl
    · rw [mapGet_mapSet_ne _ _ hp]

lemma bind_unreachable_addPage (rh : Str) (m : PageMap) (u : URL) (t : Option Str) (p : Str) :
    (mapGet (addPage rh m u t) p).bind (fun x => x.unreachable) =
      (mapGet m p).bind (fun x => x.unreachable) := by
  unfold addPage
  split
  · rfl
  · by_cases hp : p = cleanPath u
    · subst hp
      rw [mapGet_mapSet_self]
      cases mapGet m (cleanPath u) <;> rfl
    · rw [mapGet_mapSet_ne _ _ hp]

lemma bind_statusCode_addLinks (rh : Str) (dl : Nat) (links : List URL) (pages : PageMap)
    (queue : List URL) (p : Str) :
    (mapGet (addLinks rh dl links pages queue).1 p).bind (fun x => x.statusCode) =
      (mapGet pages p).bind (fun x => x.statusCode) := by
  induction links generalizing pages queue with
  | nil => rfl
  | cons link rest ih =>
    simp only [addLinks]
    split
    · exact ih _ _
    · split
      · exact ih _ _
      · split
        · rfl
        · rw [ih _ _, bind_statusCode_addPage]

lemma bind_unreachable_addLinks (rh : Str) (dl : Nat) (links : List URL) (pages : PageMap)
    (queue : List URL) (p : Str) :
    (mapGet (addLinks rh dl links pages queue).1 p).bind (fun x => x.unreachable) =
      (mapGet pages p).bind (fun x => x.unreachable) := by
  induction links generalizing pages queue with
  | nil => rfl
  | cons link rest ih =>
    simp only [addLinks]
    split
    · exact ih _ _
    · split
      · exact ih _ _
      · split
        · rfl
        · rw [ih _ _, bind_unreachable_addPage]

lemma crawlLoop_unreachable_persists (env : CrawlEnv) (dl fuel : Nat) (st : CrawlState) (p : Str)
    (h : (mapGet st.pages p).bind (fun x => x.unreachable) = some true) :
    (mapGet (crawlLoop env dl fuel st).pages p).bind (fun x => x.unreachable) = some true := by
  induction fuel generalizing st with
  | zero => exact h
  | succ n ih =>
    rw [crawlLoop]
    cases hq : st.queue with
    | nil => exact h
    | cons current rest =>
      dsimp only
      split
      · exact h
      · split
        · exact ih _ h
        · split
          · exact ih _ h
          · cases hf : env.fetchPage current with
            | none => exact ih _ h
            | some res =>
              dsimp only
              split
              · split
                · rename_i info heq
                  refine ih _ ?_
                  dsimp only
                  by_cases hp : p = cleanPath current
                  · subst hp
                    rw [mapGet_mapSet_self]
                    rfl
                  · rw [mapGet_mapSet_ne _ _ hp]
                    exact h
                · exact ih _ h
              · refine ih _ ?_
                dsimp only
                rw [bind_unreachable_addLinks, bind_unreachable_addPage]
                exact h

lemma crawlLoop_get_unreachable (env : CrawlEnv) (dl fuel : Nat) (st : CrawlState)
    (p : Str) (e : PageInfo)
    (hb : (mapGet st.pages p).bind (fun x => x.unreachable) = some true)
    (hg : mapGet (crawlLoop env dl fuel st).pages p = some e) :
    e.unreachable = some true := by
  have hpers := crawlLoop_unreachable_persists env dl fuel st p hb
  rw [hg] at hpers
  exact hpers

lemma crawlLoop_statusCode_provenance (env : CrawlEnv) (dl fuel : Nat) (st : CrawlState)
    (p : Str) (e : PageInfo) (c : Nat)
    (hg : mapGet (crawlLoop env dl fuel st).pages p = some e)
    (hc : e.statusCode = some c) :
    e.unreachable = some true ∨ (mapGet st.pages p).bind (fun x => x.statusCode) = some c := by
  induction fuel generalizing st with
  | zero =>
    rw [crawlLoop] at hg
    right
    rw [hg]
    exact hc
  | succ n ih =>
    rw [crawlLoop] at hg
    cases hq : st.queue with
    | nil =>
      rw [hq] at hg
      right
      rw [hg]
      exact hc
    | cons current rest =>
      rw [hq] at hg
      dsimp only at hg
      split at hg
      · right
        rw [hg]
        exact hc
      · split at hg
        · have hr := ih _ hg
          exact hr
        · split at hg
          · have hr := ih _ hg
            exact hr
          · cases hf : env.fetchPage current with
            | none =>
              rw [hf] at hg
              dsimp only at hg
              have hr := ih _ hg
              exact hr
            | some res =>
              rw [hf] at hg
              dsimp only at hg
              split at hg
              · split at hg
                · rename_i info heq
                  by_cases hp : p = cleanPath current
                  · left
                    subst hp
                    refine crawlLoop_get_unreachable env dl n _ _ e ?_ hg
                    dsimp only
                    rw [mapGet_mapSet_self]
                    rfl
                  · have hr := ih _ hg
                    rcases hr with h' | h'
                    · exact Or.inl h'
                    · right
                      dsimp only at h'
                      rw [mapGet_mapSet_ne _ _ hp] at h'
                      exact h'
                · have hr := ih _ hg
                  exact hr
              · have hr := ih _ hg
                rcases hr with h' | h'
                · exact Or.inl h'
                · right
                  dsimp only at h'
                  rw [bind_statusCode_addLinks, bind_statusCode_addPage] at h'
                  exact h'

/-! ## String scanning lemmas -/

lemma takeWhile_append_stop {α : Type} (P : α → Bool) (l₁ : List α) (a : α) (l₂ : List α)
    (h₁ : ∀ x ∈ l₁, P x = true) (ha : P a = false) :
    (l₁ ++ a :: l₂).takeWhile P = l₁ := by
  induction l₁ with
  | nil => simp [List.takeWhile, ha]
  | cons c rest ih =>
    have hc : P c = true := h₁ c (by simp)
    simp only [List.cons_append, List.takeWhile, hc, List.append_eq]
    rw [ih (fun x hx => h₁ x (by simp [hx]))]

lemma dropWhile_append_stop {α : Type} (P : α → Bool) (l₁ : List α) (a : α) (l₂ : List α)
    (h₁ : ∀ x ∈ l₁, P x = true) (ha : P a = false) :
    (l₁ ++ a :: l₂).dropWhile P = a :: l₂ := by
  induction l₁ with
  | nil => simp [List.dropWhile, ha]
  | cons c rest ih =>
    have hc : P c = true := h₁ c (by simp)
    simp only [List.cons_append, List.dropWhile, hc, List.append_eq]
    exact ih (fun x hx => h₁ x (by simp [hx]))

lemma takeWhile_all {α : Type} (P : α → Bool) (l : List α)
    (h : ∀ x ∈ l, P x = true) : l.takeWhile P = l := by
  induction l with
  | nil => rfl
  | cons c rest ih =>
    have hc : P c = true := h c (by simp)
    simp only [List.takeWhile, hc]
    rw [ih (fun x hx => h x (by simp [hx]))]

lemma dropWhile_all {α : Type} (P : α → Bool) (l : List α)
    (h : ∀ x ∈ l, P x = true) : l.dropWhile P = [] := by
  induction l with
  | nil => rfl
  | cons c rest ih =>
    have hc : P c = true := h c (by simp)
    simp only [List.dropWhile, hc]
    exact ih (fun x hx => h x (by simp [hx]))

/-! ## Lowercasing lemmas -/

lemma lowerChar_cases (c : Char) :
    lowerChar c = c ∨ lowerChar c ∈
      ['a', 'b', 'c', 'd', 'e', 'f', 'g', 'h', 'i', 'j', 'k', 'l', 'm',
       'n', 'o', 'p', 'q', 'r', 's', 't', 'u', 'v', 'w', 'x', 'y', 'z'] := by
  by_cases h1 : c = 'A'
  · subst h1
    decide
  by_cases h2 : c = 'B'
  · subst h2
    decide
  by_cases h3 : c = 'C'
  · subst h3
    decide
  by_cases h4 : c = 'D'
  · subst h4
    decide
  by_cases h5 : c = 'E'
  · subst h5
    decide
  by_cases h6 : c = 'F'
  · subst h6
    decide
  by_cases h7 : c = 'G'
  · subst h7
    decide
  by_cases h8 : c = 'H'
  · subst h8
    decide
  by_cases h9 : c = 'I'
  · subst h9
    decide
  by_cases h10 : c = 'J'
  · subst h10
    decide
  by_cases h11 : c = 'K'
  · subst h11
    decide
  by_cases h12 : c = 'L'
  · subst h12
    decide
  by_cases h13 : c = 'M'
  · subst h13
    decide
  by_cases h14 : c = 'N'
  · subst h14
    decide
  by_cases h15 : c = 'O'
  · subst h15
    decide
  by_cases h16 : c = 'P'
  · subst h16
    decide
  by_cases h17 : c = 'Q'
  · subst h17
    decide
  by_cases h18 : c = 'R'
  · subst h18
    decide
  by_cases h19 : c = 'S'
  · subst h19
    decide
  by_cases h20 : c = 'T'
  · subst h20
    decide
  by_cases h21 : c = 'U'
  · subst h21
    decide
  by_cases h22 : c = 'V'
  · subst h22
    decide
  by_cases h23 : c = 'W'
  · subst h23
    decide
  by_cases h24 : c = 'X'
  · subst h24
    decide
  by_cases h25 : c = 'Y'
  · subst h25
    decide
  by_cases h26 : c = 'Z'
  · subst h26
    decide
  left
  unfold lowerChar
  rw [if_neg h1, if_neg h2, if_neg h3, if_neg h4, if_neg h5, if_neg h6, if_neg h7, if_neg h8, if_neg h9, if_neg h10, if_neg h11, if_neg h12, if_neg h13, if_neg h14, if_neg h15, if_neg h16, if_neg h17, if_neg h18, if_neg h19, if_neg h20, if_neg h21, if_neg h22, if_neg h23, if_neg h24, if_neg h25, if_neg h26]

lemma lowerChar_of_mem_lower {d : Char}
    (h : d ∈ ['a', 'b', 'c', 'd', 'e', 'f', 'g', 'h', 'i', 'j', 'k', 'l', 'm',
              'n', 'o', 'p', 'q', 'r', 's', 't', 'u', 'v', 'w', 'x', 'y', 'z']) :
    lowerChar d = d := by
  fin_cases h <;> decide

lemma lowerChar_idem (c : Char) : lowerChar (lowerChar c) = lowerChar c := by
  rcases lowerChar_cases c with h | h
  · rw [h, h]
  · exact lowerChar_of_mem_lower h

lemma lowerChar_isAlpha {c : Char} (h : c.isAlpha = true) : (lowerChar c).isAlpha = true := by
  rcases lowerChar_cases c with hc | hc
  · rwa [hc]
  · generalize hd : lowerChar c = d at hc ⊢
    fin_cases hc <;> decide

lemma lowerChar_isSchemeChar {c : Char} (h : isSchemeChar c = true) :
    isSchemeChar (lowerChar c) = true := by
  rcases lowerChar_cases c with hc | hc
  · rwa [hc]
  · generalize hd : lowerChar c = d at hc ⊢
    fin_cases hc <;> decide

lemma lowerChar_isHostChar {c : Char} (h : isHostChar c = true) :
    isHostChar (lowerChar c) = true := by
  rcases lowerChar_cases c with hc | hc
  · rwa [hc]
  · generalize hd : lowerChar c = d at hc ⊢
    fin_cases hc <;> decide

lemma lowerStr_idem (s : Str) : lowerStr (lowerStr s) = lowerStr s := by
  unfold lowerStr
  rw [List.map_map]
  exact List.map_congr_left (fun c _ => lowerChar_idem c)

/-! ## Character class facts -/

lemma isWsChar_false_of_scheme {c : Char} (h : isSchemeChar c = true) : isWsChar c = false := by
  cases hw : isWsChar c
  · rfl
  · exfalso
    simp [isWsChar] at hw
    rcases hw with ((h1 | h1) | h1) | h1 <;> subst h1 <;> exact absurd h (by decide)

lemma isWsChar_false_of_host {c : Char} (h : isHostChar c = true) : isWsChar c = false := by
  cases hw : isWsChar c
  · rfl
  · exfalso
    simp [isWsChar] at hw
    rcases hw with ((h1 | h1) | h1) | h1 <;> subst h1 <;> exact absurd h (by decide)

lemma isWsChar_false_of_digit {c : Char} (h : c.isDigit = true) : isWsChar c = false := by
  cases hw : isWsChar c
  · rfl
  · exfalso
    simp [isWsChar] at hw
    rcases hw with ((h1 | h1) | h1) | h1 <;> subst h1 <;> exact absurd h (by decide)

lemma authStopChar_false_of_host {c : Char} (h : isHostChar c = true) :
    authStopChar c = false := by
  cases ha : authStopChar c
  · rfl
  · exfalso
    simp [authStopChar] at ha
    rcases ha with (h1 | h1) | h1 <;> subst h1 <;> exact absurd h (by decide)

lemma authStopChar_false_of_digit {c : Char} (h : c.isDigit = true) :
    authStopChar c = false := by
  cases ha : authStopChar c
  · rfl
  · exfalso
    simp [authStopChar] at ha
    rcases ha with (h1 | h1) | h1 <;> subst h1 <;> exact absurd h (by decide)

lemma ne_colon_of_host {c : Char} (h : isHostChar c = true) : (c != ':') = true := by
  cases hc : (c != ':')
  · exfalso
    simp at hc
    subst hc
    exact absurd h (by decide)
  · rfl

/-! ## Parser stage lemmas -/

lemma dropWhile_eq_cons_head {α : Type} {P : α → Bool} {l : List α} {a : α} {t : List α}
    (h : l.dropWhile P = a :: t) : P a = false := by
  induction l with
  | nil => simp [List.dropWhile] at h
  | cons c rest ih =>
    rw [List.dropWhile_cons] at h
    split at h
    · exact ih h
    · rename_i hc
      injection h with h1 _
      subst h1
      simpa using hc

lemma splitScheme_sound {s : Str} {raw rest2 : Str}
    (h : splitScheme s = some (raw, rest2)) :
    raw = s.takeWhile isSchemeChar ∧
    (∃ c cs, raw = c :: cs ∧ c.isAlpha = true) ∧
    (∀ x ∈ raw, isSchemeChar x = true) ∧
    s = raw ++ ':' :: '/' :: '/' :: rest2 := by
  simp only [splitScheme] at h
  split at h
  · rename_i hd tl r2 heqRaw heqRest
    split at h
    · rename_i hca
      injection h with h
      injection h with h1 h2
      subst h1
      subst h2
      refine ⟨rfl, ⟨hd, tl, heqRaw, hca⟩, ?_, ?_⟩
      · intro x hx
        exact List.mem_takeWhile_imp hx
      · have hsplit := List.takeWhile_append_dropWhile (p := isSchemeChar) (l := s)
        rw [heqRest] at hsplit
        exact hsplit.symm
    · exact absurd h (by simp)
  · exact absurd h (by simp)

lemma not_bang_eq_true {b : Bool} (h : ¬(!b) = true) : b = true := by
  cases b
  · exact absurd (by decide : (!false) = true) h
  · rfl

lemma parseHostPort_sound {auth rawHost port : Str}
    (h : parseHostPort auth = some (rawHost, port)) :
    rawHost ≠ [] ∧ (∀ x ∈ rawHost, isHostChar x = true) ∧
    port.all Char.isDigit = true := by
  simp only [parseHostPort] at h
  split at h
  · exact absurd h (by simp)
  · split at h
    · exact absurd h (by simp)
    · rename_i hne hall
      have hall2 : (List.takeWhile (fun ch => ch != ':') auth).all isHostChar = true :=
        not_bang_eq_true hall
      split at h
      · injection h with h
        injection h with h1 h2
        subst h1
        subst h2
        exact ⟨hne, fun x hx => List.all_eq_true.mp hall2 x hx, rfl⟩
      · rename_i x ds heqPort
        split at h
        · rename_i hds
          injection h with h
          injection h with h1 h2
          subst h1
          subst h2
          exact ⟨hne, fun y hy => List.all_eq_true.mp hall2 y hy, hds⟩
        · exact absurd h (by simp)

lemma parseHostPort_roundTrip {host port : Str}
    (hne : host ≠ []) (hhost : ∀ x ∈ host, isHostChar x = true)
    (hport : port.all Char.isDigit = true) :
    parseHostPort (host ++ portSer port) = some (host, port) := by
  have hall : host.all isHostChar = true := List.all_eq_true.mpr hhost
  have hno : ∀ x ∈ host, (x != ':') = true := fun x hx => ne_colon_of_host (hhost x hx)
  simp only [parseHostPort]
  by_cases hp : port = []
  · subst hp
    rw [show portSer ([] : Str) = [] from rfl, List.append_nil]
    rw [takeWhile_all _ _ hno, dropWhile_all _ _ hno]
    rw [if_neg hne, hall]
    simp
  · rw [portSer, if_neg hp]
    rw [takeWhile_append_stop _ _ _ _ hno (by decide),
      dropWhile_append_stop _ _ _ _ hno (by decide)]
    rw [if_neg hne, hall]
    simp [hport]

lemma splitScheme_roundTrip {c : Char} {cs rest : Str}
    (hca : c.isAlpha = true) (hall : ∀ x ∈ c :: cs, isSchemeChar x = true) :
    splitScheme ((c :: cs) ++ ':' :: '/' :: '/' :: rest) = some (c :: cs, rest) := by
  unfold splitScheme
  rw [takeWhile_append_stop _ _ _ _ hall (by decide),
    dropWhile_append_stop _ _ _ _ hall (by decide)]
  simp [hca]

lemma parseURL_wf {s : Str} {u : URL} (h : parseURL s = some u) :
    (∃ c cs, u.scheme = c :: cs ∧ c.isAlpha = true) ∧
    (∀ x ∈ u.scheme, isSchemeChar x = true) ∧
    lowerStr u.scheme = u.scheme ∧
    u.host ≠ [] ∧ (∀ x ∈ u.host, isHostChar x = true) ∧
    lowerStr u.host = u.host ∧
    u.port.all Char.isDigit = true := by
  unfold parseURL at h
  cases hs : splitScheme s with
  | none => rw [hs] at h; exact absurd h (by simp)
  | some pr =>
    obtain ⟨raw, rest2⟩ := pr
    rw [hs] at h
    dsimp only at h
    obtain ⟨-, ⟨c, cs, hraw, hca⟩, hschemeAll, -⟩ := splitScheme_sound hs
    cases hp : parseHostPort (splitAuthority rest2).1 with
    | none => rw [hp] at h; exact absurd h (by simp)
    | some pr2 =>
      obtain ⟨rawHost, port⟩ := pr2
      rw [hp] at h
      dsimp only at h
      obtain ⟨hhne, hhostAll, hport⟩ := parseHostPort_sound hp
      injection h with h
      subst h
      refine ⟨?_, ?_, lowerStr_idem _, ?_, ?_, lowerStr_idem _, hport⟩
      · subst hraw
        exact ⟨lowerChar c, lowerStr cs, rfl, lowerChar_isAlpha hca⟩
      · intro x hx
        simp only [lowerStr, List.mem_map] at hx
        obtain ⟨y, hy, hxy⟩ := hx
        subst hxy
        exact lowerChar_isSchemeChar (hschemeAll y hy)
      · intro hemp
        simp only [lowerStr, List.map_eq_nil_iff] at hemp
        exact hhne hemp
      · intro x hx
        simp only [lowerStr, List.mem_map] at hx
        obtain ⟨y, hy, hxy⟩ := hx
        subst hxy
        exact lowerChar_isHostChar (hhostAll y hy)

lemma parseURL_roundTrip {c : Char} {cs host port : Str}
    (hca : c.isAlpha = true) (hsch : ∀ x ∈ c :: cs, isSchemeChar x = true)
    (hslow : lowerStr (c :: cs) = c :: cs)
    (hhne : host ≠ []) (hhost : ∀ x ∈ host, isHostChar x = true)
    (hhlow : lowerStr host = host)
    (hport : port.all Char.isDigit = true) :
    parseURL ((c :: cs) ++ ':' :: '/' :: '/' :: (host ++ portSer port)) =
      some ⟨c :: cs, host, port, ['/'], [], []⟩ := by
  have hnostop : ∀ x ∈ host ++ portSer port, (!authStopChar x) = true := by
    intro x hx
    rcases List.mem_append.mp hx with hx | hx
    · rw [authStopChar_false_of_host (hhost x hx)]
      rfl
    · unfold portSer at hx
      split at hx
      · simp at hx
      · rcases List.mem_cons.mp hx with hx | hx
        · subst hx
          decide
        · rw [authStopChar_false_of_digit (List.all_eq_true.mp hport x hx)]
          rfl
  unfold parseURL
  rw [splitScheme_roundTrip hca hsch]
  dsimp only
  unfold splitAuthority
  rw [takeWhile_all _ _ hnostop, dropWhile_all _ _ hnostop]
  rw [parseHostPort_roundTrip hhne hhost hport]
  dsimp only
  rw [hslow, hhlow]
  rfl

lemma parseURL_scheme {s : Str} {u : URL} (h : parseURL s = some u) :
    u.scheme = lowerStr (s.takeWhile isSchemeChar) := by
  unfold parseURL at h
  cases hs : splitScheme s with
  | none => rw [hs] at h; exact absurd h (by simp)
  | some pr =>
    obtain ⟨raw, rest2⟩ := pr
    rw [hs] at h
    dsimp only at h
    obtain ⟨hraw, -, -, -⟩ := splitScheme_sound hs
    cases hp : parseHostPort (splitAuthority rest2).1 with
    | none => rw [hp] at h; exact absurd h (by simp)
    | some pr2 =>
      obtain ⟨rawHost, port⟩ := pr2
      rw [hp] at h
      dsimp only at h
      injection h with h
      subst h
      rw [hraw]

lemma serialize_normalized (u : URL) :
    serializeURL { u with hash := [], search := [], pathname := ['/'] } =
      (u.scheme ++ ':' :: '/' :: '/' :: (u.host ++ portSer u.port)) ++ ['/'] := by
  unfold serializeURL portSer
  dsimp only
  simp [List.append_assoc]

lemma stripTrailSlash_concat (l : Str) : stripTrailSlash (l ++ ['/']) = l := by
  unfold stripTrailSlash
  rw [List.getLast?_concat]
  simp [List.dropLast_concat]

lemma dropWhile_of_forall_false {α : Type} (P : α → Bool) (l : List α)
    (h : ∀ x ∈ l, P x = false) : l.dropWhile P = l := by
  cases l with
  | nil => rfl
  | cons c rest =>
    rw [List.dropWhile_cons, if_neg]
    simp [h c (by simp)]

lemma trimStr_eq_self {s : Str} (h : ∀ c ∈ s, isWsChar c = false) : trimStr s = s := by
  unfold trimStr
  rw [dropWhile_of_forall_false _ _ h]
  rw [dropWhile_of_forall_false _ _ (fun c hc => h c (by simpa using hc))]
  exact List.reverse_reverse s

lemma takeWhile_http {s' : Str} :
    List.takeWhile isSchemeChar ('h' :: 't' :: 't' :: 'p' :: s') =
      'h' :: 't' :: 't' :: 'p' :: List.takeWhile isSchemeChar s' := by
  rw [List.takeWhile_cons, if_pos (by decide : isSchemeChar 'h' = true)]
  rw [List.takeWhile_cons, if_pos (by decide : isSchemeChar 't' = true)]
  rw [List.takeWhile_cons, if_pos (by decide : isSchemeChar 't' = true)]
  rw [List.takeWhile_cons, if_pos (by decide : isSchemeChar 'p' = true)]

lemma lowerStr_http {t : Str} :
    lowerStr ('h' :: 't' :: 't' :: 'p' :: t) = 'h' :: 't' :: 't' :: 'p' :: lowerStr t := by
  unfold lowerStr
  simp only [List.map_cons]
  rw [show lowerChar 'h' = 'h' from by decide, show lowerChar 't' = 't' from by decide,
    show lowerChar 'p' = 'p' from by decide]

lemma normalizeDomain_spec {x r : Str} (h : normalizeDomain x = some r) :
    (parseURL r).isSome = true ∧ normalizeDomain r = some r := by
  simp only [normalizeDomain] at h
  split at h
  · exact absurd h (by simp)
  · rename_i u0 heq
    injection h with h
    obtain ⟨⟨c, cs, hsch, hca⟩, hschemeAll, hslow, hhne, hhostAll, hhlow, hport⟩ :=
      parseURL_wf heq
    have hshape : r = u0.scheme ++ ':' :: '/' :: '/' :: (u0.host ++ portSer u0.port) := by
      rw [← h, serialize_normalized, stripTrailSlash_concat]
    have hsw : ∃ t0, u0.scheme = 'h' :: 't' :: 't' :: 'p' :: t0 := by
      by_cases hc0 : (['h', 't', 't', 'p'] : Str).isPrefixOf (trimStr x) = true
      · rw [if_pos hc0] at heq
        obtain ⟨t, ht⟩ := List.isPrefixOf_iff_prefix.mp hc0
        have hs2 := parseURL_scheme heq
        rw [← ht] at hs2
        rw [show (['h', 't', 't', 'p'] : Str) ++ t = 'h' :: 't' :: 't' :: 'p' :: t from rfl] at hs2
        rw [takeWhile_http, lowerStr_http] at hs2
        exact ⟨_, hs2⟩
      · rw [if_neg hc0] at heq
        have hs2 := parseURL_scheme heq
        rw [show ('h' :: 't' :: 't' :: 'p' :: 's' :: ':' :: '/' :: '/' :: []) ++ trimStr x =
          'h' :: 't' :: 't' :: 'p' :: ('s' :: ':' :: '/' :: '/' :: trimStr x) from rfl] at hs2
        rw [takeWhile_http, lowerStr_http] at hs2
        exact ⟨_, hs2⟩
    obtain ⟨t0, hsw⟩ := hsw
    have hnws : ∀ ch ∈ r, isWsChar ch = false := by
      rw [hshape]
      intro ch hch
      rcases List.mem_append.mp hch with hch | hch
      · exact isWsChar_false_of_scheme (hschemeAll _ hch)
      · simp only [List.mem_cons] at hch
        rcases hch with rfl | rfl | rfl | hch
        · decide
        · decide
        · decide
        · rcases List.mem_append.mp hch with hch | hch
          · exact isWsChar_false_of_host (hhostAll _ hch)
          · unfold portSer at hch
            split at hch
            · simp at hch
            · rcases List.mem_cons.mp hch with rfl | hch
              · decide
              · exact isWsChar_false_of_digit (List.all_eq_true.mp hport _ hch)
    have htrim : trimStr r = r := trimStr_eq_self hnws
    have hpre : (['h', 't', 't', 'p'] : Str).isPrefixOf r = true := by
      rw [hshape, hsw]
      show (['h', 't', 't', 'p'] : Str).isPrefixOf
        ('h' :: 't' :: 't' :: 'p' :: (t0 ++ ':' :: '/' :: '/' :: (u0.host ++ portSer u0.port))) = true
      simp [List.isPrefixOf]
    have hparse : parseURL r = some ⟨u0.scheme, u0.host, u0.port, ['/'], [], []⟩ := by
      rw [hshape, hsch]
      exact parseURL_roundTrip hca (hsch ▸ hschemeAll) (hsch ▸ hslow) hhne hhostAll hhlow hport
    constructor
    · rw [hparse]
      rfl
    · simp only [normalizeDomain]
      rw [htrim, if_pos hpre, hparse]
      dsimp only
      rw [show serializeURL ⟨u0.scheme, u0.host, u0.port, ['/'], [], []⟩ =
          (u0.scheme ++ ':' :: '/' :: '/' :: (u0.host ++ portSer u0.port)) ++ ['/'] from
        serialize_normalized ⟨u0.scheme, u0.host, u0.port, ['/'], [], []⟩]
      rw [stripTrailSlash_concat, hshape]

/-! ## Discovery seed bound -/

lemma length_foldl_addPage (rh : Str) (urls : List URL) (m : PageMap) :
    (urls.foldl (fun acc u => addPage rh acc u none) m).length ≤ m.length + urls.length := by
  induction urls generalizing m with
  | nil => simp
  | cons u rest ih =>
    simp only [List.foldl_cons]
    refine le_trans (ih _) ?_
    have := length_addPage_le rh m u none
    simp only [List.length_cons]
    omega

lemma fetchSitemapUrls_length_le (env : CrawlEnv) (root : URL) :
    (fetchSitemapUrls env root).length ≤ MAX_PAGES := by
  unfold fetchSitemapUrls
  refine le_trans (List.length_take_le _ _) le_rfl

/-! ## Claim theorems, part 1 -/

/-- C9: `normalizeDomain` is idempotent — whenever it succeeds, running it
again on its own output returns that output unchanged. -/
theorem normalizeDomain_idem (x r : Str) (h : normalizeDomain x = some r) :
    normalizeDomain r = some r := (normalizeDomain_spec h).2

/-- Witness for C9 at a concrete input. -/
theorem normalizeDomain_idem_witness :
    normalizeDomain ("https://example.com".toList) = some ("https://example.com".toList) :=
  normalizeDomain_idem ("example.com".toList) ("https://example.com".toList) (by decide)

/-- C1 (amended): `crawlDomain` returns a graph whenever the domain
normalizes — fetch failures, including a failed first fetch of the root,
never abort the crawl. -/
theorem crawl_always_returns_graph (env : CrawlEnv) (d : Str) (md : Int) (fuel : Nat)
    (h : (normalizeDomain d).isSome = true) :
    (crawlDomain env d md fuel).isSome = true := by
  cases hn : normalizeDomain d with
  | none => rw [hn] at h; exact absurd h (by simp)
  | some r =>
    have hp := (normalizeDomain_spec hn).1
    cases hpr : parseURL r with
    | none => rw [hpr] at hp; exact absurd hp (by simp)
    | some u =>
      unfold crawlDomain
      rw [hn]
      dsimp only
      rw [hpr]
      rfl

/-- Witness for C1: the crawl against the 404-root network still returns a
graph. -/
theorem crawl_always_returns_graph_witness :
    (crawlDomain envRoot404 exDomain 1 10).isSome = true :=
  crawl_always_returns_graph envRoot404 exDomain 1 10 (by decide)

/-- C2 (amended): every page registered by the crawl loop beyond the
pre-seeded registry satisfies the depth bound; pre-seeded pages (root and
sitemap seeds) are exempt. -/
theorem link_discovery_respects_depth (env : CrawlEnv) (dl fuel : Nat) (st : CrawlState)
    (p : Str) (h : p ∈ mapKeys (crawlLoop env dl fuel st).pages) :
    p ∈ mapKeys st.pages ∨ (pathSegments p).length ≤ dl :=
  crawlLoop_keys env dl fuel st h

/-- Witness for C2: the link-discovered page `/x` of the concrete network
is within depth 1. -/
theorem link_discovery_respects_depth_witness :
    "/x".toList ∈ mapKeys exSeedState.pages ∨ (pathSegments ("/x".toList)).length ≤ 1 :=
  link_discovery_respects_depth envTitle 1 10 exSeedState ("/x".toList) (by decide)

/-- C7: the registry merge never erases a known title — an update carrying
no title leaves the existing title in place. -/
theorem addPage_keeps_known_title (rh : Str) (m : PageMap) (u : URL) (e : PageInfo) (t : Str)
    (he : mapGet m (cleanPath u) = some e) (ht : e.title = some t) :
    (mapGet (addPage rh m u none) (cleanPath u)).bind (fun x => x.title) = some t := by
  unfold addPage
  split
  · rw [he]
    exact ht
  · rw [mapGet_mapSet_self]
    dsimp only
    rw [he]
    exact ht

/-- Witness for C7 at a concrete registry. -/
theorem addPage_keeps_known_title_witness :
    (mapGet (addPage exHost titledRegistry (exURL ['/']) none) (cleanPath (exURL ['/']))).bind
      (fun x => x.title) = some ("T".toList) :=
  addPage_keeps_known_title exHost titledRegistry (exURL ['/'])
    { path := ['/'], url := exURL ['/'], title := some ("T".toList),
      statusCode := none, unreachable := none }
    ("T".toList) (by decide) rfl

/-- C6 (amended): a status code in the final registry is either inherited
from the state before the loop or was recorded by a failed fetch together
with `unreachable = true`; successful fetches never record their status. -/
theorem status_only_recorded_on_failure (env : CrawlEnv) (dl fuel : Nat) (st : CrawlState)
    (p : Str) (e : PageInfo) (c : Nat)
    (hg : mapGet (crawlLoop env dl fuel st).pages p = some e)
    (hc : e.statusCode = some c) :
    e.unreachable = some true ∨ (mapGet st.pages p).bind (fun x => x.statusCode) = some c :=
  crawlLoop_statusCode_provenance env dl fuel st p e c hg hc

/-- Witness for C6: the 404 recorded for the root of the failing network
comes with `unreachable = true`. -/
theorem status_only_recorded_on_failure_witness :
    ({ path := ['/'], url := exURL ['/'], title := none, statusCode := some 404,
       unreachable := some true } : PageInfo).unreachable = some true ∨
    (mapGet exSeedState.pages ['/']).bind (fun x => x.statusCode) = some 404 :=
  status_only_recorded_on_failure envRoot404 1 10 exSeedState ['/']
    { path := ['/'], url := exURL ['/'], title := none, statusCode := some 404,
      unreachable := some true }
    404 (by decide) rfl

/-- C8 (amended): the discovery phase never registers more than 81 pages —
the sitemap seed list is cut to `MAX_PAGES` (80), so together with the root
the registry may reach, but never exceed, `MAX_PAGES + 1`. -/
theorem discovery_within_81_pages (env : CrawlEnv) (rootUrl : URL) (dl fuel : Nat) :
    (runDiscovery env rootUrl dl fuel).pages.length ≤ MAX_PAGES + 1 := by
  unfold runDiscovery
  refine le_trans (crawlLoop_length _ _ _ _) ?_
  refine max_le ?_ (by omega)
  dsimp only
  have h0 : (addPage rootUrl.host [] rootUrl none).length ≤ 1 := length_addPage_le _ _ _ _
  have h1 := length_foldl_addPage rootUrl.host (fetchSitemapUrls env rootUrl)
    (addPage rootUrl.host [] rootUrl none)
  have h2 := fetchSitemapUrls_length_le env rootUrl
  omega

/-- C10: the canonical (lowercased, `www.`-stripped) form of the working
host never changes across the crawl loop, so the set of hostnames accepted
by the same-host filter is invariant for the entire crawl. -/
theorem same_host_filter_invariant (env : CrawlEnv) (dl fuel : Nat) (st : CrawlState) :
    canonHost (crawlLoop env dl fuel st).rootHost = canonHost st.rootHost ∧
    ∀ h, matchesHost h (crawlLoop env dl fuel st).rootHost = matchesHost h st.rootHost := by
  refine ⟨crawlLoop_canonHost env dl fuel st, fun h => ?_⟩
  show (canonHost h == canonHost (crawlLoop env dl fuel st).rootHost) =
    (canonHost h == canonHost st.rootHost)
  rw [crawlLoop_canonHost]

/-! ## Reconciliation lemmas -/

lemma exists_get_of_mem {m : PageMap} {q : Str} (h : q ∈ mapKeys m) :
    ∃ v, mapGet m q = some v := by
  have hs := (mapGet_isSome_iff_mem m q).mpr h
  cases hg : mapGet m q with
  | none => rw [hg] at hs; exact absurd hs (by simp)
  | some v => exact ⟨v, rfl⟩

lemma ensureLoop_get_existing (rh : Str) (ru : URL) (fuel : Nat) (m : PageMap)
    (po : Option Str) {q : Str} {v : PageInfo} (h : mapGet m q = some v) :
    mapGet (ensureLoop rh ru fuel m po) q = some v := by
  induction fuel generalizing m po with
  | zero => cases po <;> exact h
  | succ n ih =>
    cases po with
    | none => exact h
    | some parent =>
      rw [ensureLoop]
      by_cases hhas : mapHas m parent = true
      · rw [if_pos hhas]
        exact ih _ _ h
      · rw [if_neg hhas]
        refine ih _ _ ?_
        by_cases hq : q = parent
        · subst hq
          exact absurd (by rw [mapHas, h]; rfl) hhas
        · rw [mapGet_mapSet_ne _ _ hq]
          exact h

lemma ensureLoop_keys_mono (rh : Str) (ru : URL) (fuel : Nat) (m : PageMap)
    (po : Option Str) {q : Str} (hq : q ∈ mapKeys m) :
    q ∈ mapKeys (ensureLoop rh ru fuel m po) := by
  obtain ⟨v, hv⟩ := exists_get_of_mem hq
  exact mem_keys_of_mapGet (ensureLoop_get_existing rh ru fuel m po hv)

lemma ensureLoop_get_new (rh : Str) (ru : URL) (fuel : Nat) (m : PageMap)
    (po : Option Str) {q : Str}
    (hq : q ∈ mapKeys (ensureLoop rh ru fuel m po)) (hnew : q ∉ mapKeys m) :
    mapGet (ensureLoop rh ru fuel m po) q = some (placeholderEntry rh ru q) := by
  induction fuel generalizing m po with
  | zero => cases po <;> exact absurd hq hnew
  | succ n ih =>
    cases po with
    | none => exact absurd hq hnew
    | some parent =>
      rw [ensureLoop] at hq ⊢
      by_cases hhas : mapHas m parent = true
      · rw [if_pos hhas] at hq ⊢
        exact ih _ _ hq hnew
      · rw [if_neg hhas] at hq ⊢
        by_cases hqp : q ∈ mapKeys (mapSet m parent (placeholderEntry rh ru parent))
        · have hq_eq : q = parent := by
            rcases mem_keys_mapSet hqp with h | h
            · exact absurd h hnew
            · exact h
          subst hq_eq
          exact ensureLoop_get_existing _ _ _ _ _ (mapGet_mapSet_self m q _)
        · exact ih _ _ hq hqp

lemma ensureLoop_keys_nodup (rh : Str) (ru : URL) (fuel : Nat) (m : PageMap)
    (po : Option Str) (h : (mapKeys m).Nodup) :
    (mapKeys (ensureLoop rh ru fuel m po)).Nodup := by
  induction fuel generalizing m po with
  | zero => cases po <;> exact h
  | succ n ih =>
    cases po with
    | none => exact h
    | some parent =>
      rw [ensureLoop]
      by_cases hhas : mapHas m parent = true
      · rw [if_pos hhas]
        exact ih _ _ h
      · rw [if_neg hhas]
        exact ih _ _ (nodup_mapKeys_mapSet _ h)

lemma foldEnsure_get_existing (rh : Str) (ru : URL) (ks : List Str) (m : PageMap)
    {q : Str} {v : PageInfo} (h : mapGet m q = some v) :
    mapGet (ks.foldl (fun acc p => ensureAncestors rh ru acc p) m) q = some v := by
  induction ks generalizing m with
  | nil => exact h
  | cons k rest ih =>
    simp only [List.foldl_cons]
    exact ih _ (ensureLoop_get_existing _ _ _ _ _ h)

lemma foldEnsure_keys_mono (rh : Str) (ru : URL) (ks : List Str) (m : PageMap)
    {q : Str} (hq : q ∈ mapKeys m) :
    q ∈ mapKeys (ks.foldl (fun acc p => ensureAncestors rh ru acc p) m) := by
  obtain ⟨v, hv⟩ := exists_get_of_mem hq
  exact mem_keys_of_mapGet (foldEnsure_get_existing rh ru ks m hv)

lemma foldEnsure_get_new (rh : Str) (ru : URL) (ks : List Str) (m : PageMap)
    {q : Str}
    (hq : q ∈ mapKeys (ks.foldl (fun acc p => ensureAncestors rh ru acc p) m))
    (hnew : q ∉ mapKeys m) :
    mapGet (ks.foldl (fun acc p => ensureAncestors rh ru acc p) m) q =
      some (placeholderEntry rh ru q) := by
  induction ks generalizing m with
  | nil => exact absurd hq hnew
  | cons k rest ih =>
    simp only [List.foldl_cons] at hq ⊢
    by_cases hq1 : q ∈ mapKeys (ensureAncestors rh ru m k)
    · have := ensureLoop_get_new rh ru _ _ _ hq1 hnew
      exact foldEnsure_get_existing rh ru rest _ this
    · exact ih _ hq hq1

lemma foldEnsure_keys_nodup (rh : Str) (ru : URL) (ks : List Str) (m : PageMap)
    (h : (mapKeys m).Nodup) :
    (mapKeys (ks.foldl (fun acc p => ensureAncestors rh ru acc p) m)).Nodup := by
  induction ks generalizing m with
  | nil => exact h
  | cons k rest ih =>
    simp only [List.foldl_cons]
    exact ih _ (ensureLoop_keys_nodup _ _ _ _ _ h)

/-- C5 (amended): every entry synthesized by hierarchy reconciliation — a
key of the reconciled registry that was not registered before — is the
placeholder: `unreachable = true`, a title derived from the last path
segment (or the working hostname at the root), and status code 404. -/
theorem reconcile_synthesizes_placeholders (rh : Str) (ru : URL) (m : PageMap) (q : Str)
    (hq : q ∈ mapKeys (reconcile rh ru m)) (hnew : q ∉ mapKeys m) :
    mapGet (reconcile rh ru m) q = some
      { path := q
        url := resolveOnRoot ru q
        title :=
          if q = ['/'] then some rh
          else
            match (splitSlash q).getLast? with
            | some seg => if seg = [] then some q else some seg
            | none => some q
        statusCode := some 404
        unreachable := some true } := by
  unfold reconcile at hq ⊢
  exact foldEnsure_get_new rh ru (mapKeys m) m hq hnew

/-- Witness for C5: reconciling a registry holding `/` and `/a/b`
synthesizes exactly this placeholder for `/a`. -/
theorem reconcile_synthesizes_placeholders_witness :
    mapGet (reconcile exHost (exURL ['/']) exDeepRegistry) ("/a".toList) = some
      { path := "/a".toList
        url := resolveOnRoot (exURL ['/']) ("/a".toList)
        title :=
          if "/a".toList = ['/'] then some exHost
          else
            match (splitSlash ("/a".toList)).getLast? with
            | some seg => if seg = [] then some ("/a".toList) else some seg
            | none => some ("/a".toList)
        statusCode := some 404
        unreachable := some true } :=
  reconcile_synthesizes_placeholders exHost (exURL ['/']) exDeepRegistry ("/a".toList)
    (by decide) (by decide)

/-! ## Path structure lemmas -/

lemma splitSlash_ne_nil (s : Str) : splitSlash s ≠ [] := by
  cases s with
  | nil => simp [splitSlash]
  | cons c rest =>
    rw [splitSlash]
    split
    · simp
    · split
      · simp
      · simp

lemma mem_splitSlash_no_slash {s seg : Str} (h : seg ∈ splitSlash s) : '/' ∉ seg := by
  induction s generalizing seg with
  | nil =>
    simp [splitSlash] at h
    subst h
    simp
  | cons c rest ih =>
    rw [splitSlash] at h
    split at h
    · rcases List.mem_cons.mp h with rfl | h
      · simp
      · exact ih h
    · rename_i hc
      split at h
      · rename_i hhead t heq
        rcases List.mem_cons.mp h with rfl | h
        · intro hmem
          rcases List.mem_cons.mp hmem with rfl | hmem
          · exact hc rfl
          · exact ih (show hhead ∈ splitSlash rest by rw [heq]; exact List.mem_cons_self hhead t) hmem
        · exact ih (show seg ∈ splitSlash rest by rw [heq]; exact List.mem_cons.mpr (Or.inr h))
      · rename_i heq2
        exact absurd heq2 (splitSlash_ne_nil rest)

lemma splitSlash_of_no_slash {a : Str} (h : '/' ∉ a) : splitSlash a = [a] := by
  induction a with
  | nil => rfl
  | cons c rest ih =>
    rw [splitSlash]
    have hc : ¬(c = '/') := fun he => h (he ▸ List.mem_cons_self c rest)
    rw [if_neg hc]
    have hrest : '/' ∉ rest := fun hm => h (List.mem_cons.mpr (Or.inr hm))
    rw [ih hrest]

lemma splitSlash_append {a t : Str} (h : '/' ∉ a) :
    splitSlash (a ++ '/' :: t) = a :: splitSlash t := by
  induction a with
  | nil =>
    rw [List.nil_append, splitSlash]
    rw [if_pos rfl]
  | cons c rest ih =>
    have hc : ¬(c = '/') := fun he => h (he ▸ List.mem_cons_self c rest)
    have hrest : '/' ∉ rest := fun hm => h (List.mem_cons.mpr (Or.inr hm))
    rw [List.cons_append, splitSlash]
    rw [if_neg hc, ih hrest]

lemma mem_pathSegments_wf {p seg : Str} (h : seg ∈ pathSegments p) :
    seg ≠ [] ∧ '/' ∉ seg := by
  unfold pathSegments at h
  split at h
  · simp at h
  · rw [List.mem_filter] at h
    refine ⟨by simpa using h.2, ?_⟩
    split at h
    · exact mem_splitSlash_no_slash h.1
    · exact mem_splitSlash_no_slash h.1

lemma mem_of_mem_dropLast {α : Type} {l : List α} {a : α} (h : a ∈ l.dropLast) : a ∈ l := by
  induction l with
  | nil => simp at h
  | cons c rest ih =>
    cases rest with
    | nil => simp at h
    | cons c2 rest2 =>
      rw [List.dropLast_cons₂] at h
      rcases List.mem_cons.mp h with rfl | h
      · exact List.mem_cons_self _ _
      · exact List.mem_cons.mpr (Or.inr (ih h))

lemma joinSlash_ne_nil {l : List Str} (hl : l ≠ [])
    (hwf : ∀ s ∈ l, s ≠ []) : joinSlash l ≠ [] := by
  cases l with
  | nil => exact absurd rfl hl
  | cons s rest =>
    cases rest with
    | nil => exact hwf s (by simp)
    | cons s2 rest2 =>
      show s ++ '/' :: joinSlash (s2 :: rest2) ≠ []
      intro hx
      rcases List.append_eq_nil.mp hx with ⟨-, h2⟩
      simp at h2

lemma splitSlash_joinSlash {l : List Str} (hl : l ≠ [])
    (hwf : ∀ s ∈ l, '/' ∉ s) : splitSlash (joinSlash l) = l := by
  induction l with
  | nil => exact absurd rfl hl
  | cons s rest ih =>
    cases rest with
    | nil =>
      show splitSlash s = [s]
      exact splitSlash_of_no_slash (hwf s (by simp))
    | cons s2 rest2 =>
      show splitSlash (s ++ '/' :: joinSlash (s2 :: rest2)) = s :: s2 :: rest2
      rw [splitSlash_append (hwf s (by simp))]
      rw [ih (by simp) (fun x hx => hwf x (List.mem_cons.mpr (Or.inr hx)))]

lemma pathSegments_parent_join {l : List Str} (hl : l ≠ [])
    (hwf : ∀ s ∈ l, s ≠ [] ∧ '/' ∉ s) :
    pathSegments ('/' :: joinSlash l) = l := by
  have hjoin : joinSlash l ≠ [] := joinSlash_ne_nil hl (fun s hs => (hwf s hs).1)
  unfold pathSegments
  rw [if_neg ?_]
  · show (splitSlash (joinSlash l)).filter (fun seg => seg ≠ []) = l
    rw [splitSlash_joinSlash hl (fun s hs => (hwf s hs).2)]
    rw [List.filter_eq_self.mpr]
    intro a ha
    simpa using (hwf a ha).1
  · intro hx
    injection hx with h1 h2
    exact hjoin h2

lemma parentPath_segments {p q : Str} (h : parentPath p = some q) :
    pathSegments q = (pathSegments p).dropLast ∧ pathSegments p ≠ [] := by
  simp only [parentPath] at h
  split at h
  · exact absurd h (by simp)
  · split at h
    · rename_i hz hone
      injection h with h
      subst h
      refine ⟨?_, ?_⟩
      · rw [show pathSegments ['/'] = [] from rfl]
        cases hsegs : pathSegments p with
        | nil => rw [hsegs] at hz; simp at hz
        | cons a rest =>
          rw [hsegs] at hone
          simp only [List.length_cons] at hone
          have hrest : rest = [] := List.length_eq_zero.mp (by omega)
          subst hrest
          rfl
      · intro hx
        rw [hx] at hz
        simp at hz
    · rename_i hz hone
      injection h with h
      subst h
      refine ⟨?_, ?_⟩
      · refine pathSegments_parent_join ?_ ?_
        · intro hx
          have hlen := congrArg List.length hx
          rw [List.length_dropLast] at hlen
          simp only [List.length_nil] at hlen
          omega
        · intro s hs
          exact mem_pathSegments_wf (mem_of_mem_dropLast hs)
      · intro hx
        rw [hx] at hz
        simp at hz

lemma parentPath_length {p q : Str} (h : parentPath p = some q) :
    (pathSegments q).length + 1 = (pathSegments p).length := by
  obtain ⟨hseg, hne⟩ := parentPath_segments h
  rw [hseg, List.length_dropLast]
  have : (pathSegments p).length ≠ 0 := fun hx => hne (List.length_eq_zero.mp hx)
  omega

/-! ## Parent chain lemmas -/

lemma parentChain_closed (fuel : Nat) :
    ∀ (po : Option Str),
      (∀ r, po = some r → (pathSegments r).length < fuel) →
      ∀ q ∈ parentChain fuel po, ∀ q', parentPath q = some q' →
        q' ∈ parentChain fuel po := by
  induction fuel with
  | zero =>
    intro po hok q hq q' hq'
    cases po with
    | none => simp [parentChain] at hq
    | some r => simp [parentChain] at hq
  | succ n ih =>
    intro po hok q hq q' hq'
    cases po with
    | none => simp [parentChain] at hq
    | some r =>
      rw [parentChain] at hq ⊢
      have hokr : ∀ r', parentPath r = some r' → (pathSegments r').length < n := by
        intro r' hr'
        have := parentPath_length hr'
        have := hok r rfl
        omega
      rcases List.mem_cons.mp hq with rfl | hq
      · right
        rw [hq']
        cases n with
        | zero =>
          have h1 := parentPath_length hq'
          have h2 := hok q rfl
          omega
        | succ k =>
          rw [parentChain]
          exact List.mem_cons_self _ _
      · right
        exact ih (parentPath r) hokr q hq q' hq'

lemma parentChain_head {p q : Str} (h : parentPath p = some q) :
    q ∈ parentChain (pathSegments p).length (parentPath p) := by
  have hlen := parentPath_length h
  rw [h]
  cases hn : (pathSegments p).length with
  | zero => omega
  | succ k =>
    rw [parentChain]
    exact List.mem_cons_self _ _

lemma fullChain_ok {p : Str} :
    ∀ r, parentPath p = some r → (pathSegments r).length < (pathSegments p).length := by
  intro r hr
  have := parentPath_length hr
  omega

/-! ## ensureLoop chain coverage -/

lemma ensureLoop_chain_mem (rh : Str) (ru : URL) (fuel : Nat) :
    ∀ (po : Option Str) (m : PageMap) (q : Str), q ∈ parentChain fuel po →
      q ∈ mapKeys (ensureLoop rh ru fuel m po) := by
  induction fuel with
  | zero =>
    intro po m q hq
    cases po <;> simp [parentChain] at hq
  | succ n ih =>
    intro po m q hq
    cases po with
    | none => simp [parentChain] at hq
    | some parent =>
      rw [parentChain] at hq
      rw [ensureLoop]
      rcases List.mem_cons.mp hq with rfl | hq
      · by_cases hhas : mapHas m q = true
        · rw [if_pos hhas]
          refine ensureLoop_keys_mono rh ru n m _ ?_
          exact (mapGet_isSome_iff_mem m q).mp hhas
        · rw [if_neg hhas]
          refine ensureLoop_keys_mono rh ru n _ _ ?_
          exact mem_keys_of_mapGet (mapGet_mapSet_self m q _)
      · by_cases hhas : mapHas m parent = true
        · rw [if_pos hhas]
          exact ih _ _ _ hq
        · rw [if_neg hhas]
          exact ih _ _ _ hq

lemma ensureLoop_keys_sub (rh : Str) (ru : URL) (fuel : Nat) :
    ∀ (po : Option Str) (m : PageMap) (q : Str),
      q ∈ mapKeys (ensureLoop rh ru fuel m po) →
      q ∈ mapKeys m ∨ q ∈ parentChain fuel po := by
  induction fuel with
  | zero =>
    intro po m q hq
    cases po <;> exact Or.inl hq
  | succ n ih =>
    intro po m q hq
    cases po with
    | none => exact Or.inl hq
    | some parent =>
      rw [ensureLoop] at hq
      rw [parentChain]
      by_cases hhas : mapHas m parent = true
      · rw [if_pos hhas] at hq
        rcases ih _ _ _ hq with h | h
        · exact Or.inl h
        · exact Or.inr (List.mem_cons.mpr (Or.inr h))
      · rw [if_neg hhas] at hq
        rcases ih _ _ _ hq with h | h
        · rcases mem_keys_mapSet h with h' | h'
          · exact Or.inl h'
          · exact Or.inr (List.mem_cons.mpr (Or.inl h'))
        · exact Or.inr (List.mem_cons.mpr (Or.inr h))

lemma foldEnsure_chain_mem (rh : Str) (ru : URL) (ks : List Str) (m : PageMap)
    {p q : Str} (hp : p ∈ ks)
    (hq : q ∈ parentChain (pathSegments p).length (parentPath p)) :
    q ∈ mapKeys (ks.foldl (fun acc x => ensureAncestors rh ru acc x) m) := by
  induction ks generalizing m with
  | nil => simp at hp
  | cons k rest ih =>
    simp only [List.foldl_cons]
    rcases List.mem_cons.mp hp with rfl | hp
    · refine foldEnsure_keys_mono rh ru rest _ ?_
      exact ensureLoop_chain_mem rh ru _ _ _ _ hq
    · exact ih (ensureAncestors rh ru m k) hp

lemma foldEnsure_keys_sub (rh : Str) (ru : URL) (ks : List Str) (m : PageMap)
    {q : Str}
    (hq : q ∈ mapKeys (ks.foldl (fun acc x => ensureAncestors rh ru acc x) m)) :
    q ∈ mapKeys m ∨
      ∃ p ∈ ks, q ∈ parentChain (pathSegments p).length (parentPath p) := by
  induction ks generalizing m with
  | nil => exact Or.inl hq
  | cons k rest ih =>
    simp only [List.foldl_cons] at hq
    rcases ih _ hq with h | ⟨p, hp, hc⟩
    · rcases ensureLoop_keys_sub rh ru _ _ _ _ h with h' | h'
      · exact Or.inl h'
      · exact Or.inr ⟨k, List.mem_cons_self _ _, h'⟩
    · exact Or.inr ⟨p, List.mem_cons.mpr (Or.inr hp), hc⟩

lemma reconcile_parent_closed (rh : Str) (ru : URL) (m : PageMap) {p q : Str}
    (hp : p ∈ mapKeys (reconcile rh ru m)) (hq : parentPath p = some q) :
    q ∈ mapKeys (reconcile rh ru m) := by
  unfold reconcile at hp ⊢
  rcases foldEnsure_keys_sub rh ru (mapKeys m) m hp with h | ⟨p0, hp0, hc⟩
  · exact foldEnsure_chain_mem rh ru _ _ h (parentChain_head hq)
  · have hclosed := parentChain_closed (pathSegments p0).length (parentPath p0)
      (fun r hr => fullChain_ok r hr) p hc q hq
    exact foldEnsure_chain_mem rh ru _ _ hp0 hclosed

lemma reconcile_keys_nodup (rh : Str) (ru : URL) (m : PageMap)
    (h : (mapKeys m).Nodup) : (mapKeys (reconcile rh ru m)).Nodup := by
  unfold reconcile
  exact foldEnsure_keys_nodup rh ru (mapKeys m) m h

lemma reconcile_keys_mono (rh : Str) (ru : URL) (m : PageMap) {q : Str}
    (hq : q ∈ mapKeys m) : q ∈ mapKeys (reconcile rh ru m) := by
  unfold reconcile
  exact foldEnsure_keys_mono rh ru (mapKeys m) m hq

lemma nodup_keys_foldl_addPage (rh : Str) (urls : List URL) (m : PageMap)
    (h : (mapKeys m).Nodup) :
    (mapKeys (urls.foldl (fun acc u => addPage rh acc u none) m)).Nodup := by
  induction urls generalizing m with
  | nil => exact h
  | cons u rest ih =>
    simp only [List.foldl_cons]
    exact ih _ (nodup_keys_addPage _ _ _ _ h)

lemma nodup_keys_runDiscovery (env : CrawlEnv) (rootUrl : URL) (dl fuel : Nat) :
    (mapKeys (runDiscovery env rootUrl dl fuel).pages).Nodup := by
  unfold runDiscovery
  refine nodup_keys_crawlLoop _ _ _ _ ?_
  dsimp only
  refine nodup_keys_foldl_addPage _ _ _ ?_
  refine nodup_keys_addPage _ _ _ _ ?_
  simp [mapKeys]

lemma crawlDomain_inv {env : CrawlEnv} {d : Str} {md : Int} {fuel : Nat} {g : CrawlResult}
    (h : crawlDomain env d md fuel = some g) :
    ∃ rootUrl, g = crawlCore env rootUrl md fuel := by
  unfold crawlDomain at h
  split at h
  · exact absurd h (by simp)
  · split at h
    · exact absurd h (by simp)
    · rename_i rootUrl heq
      injection h with h
      exact ⟨rootUrl, h.symm⟩

/-! ## Graph assembly lemmas -/

lemma nodes_map_path (ru : URL) (M : PageMap) (ks : List Str)
    (h : ∀ p ∈ ks, (mapGet M p).isSome = true) :
    (ks.filterMap (fun p => (mapGet M p).map (mkNode ru p))).map (fun n => n.path) = ks := by
  induction ks with
  | nil => rfl
  | cons p rest ih =>
    have hp := h p (by simp)
    obtain ⟨info, hinfo⟩ : ∃ info, mapGet M p = some info := by
      cases hg : mapGet M p with
      | none => rw [hg] at hp; simp at hp
      | some info => exact ⟨info, rfl⟩
    rw [List.filterMap_cons, hinfo]
    dsimp only [Option.map_some']
    rw [List.map_cons]
    rw [ih (fun x hx => h x (List.mem_cons.mpr (Or.inr hx)))]
    rfl

lemma nodes_map_id (ru : URL) (M : PageMap) (ks : List Str)
    (h : ∀ p ∈ ks, (mapGet M p).isSome = true) :
    (ks.filterMap (fun p => (mapGet M p).map (mkNode ru p))).map (fun n => n.id) =
      ks.map makeNodeId := by
  induction ks with
  | nil => rfl
  | cons p rest ih =>
    have hp := h p (by simp)
    obtain ⟨info, hinfo⟩ : ∃ info, mapGet M p = some info := by
      cases hg : mapGet M p with
      | none => rw [hg] at hp; simp at hp
      | some info => exact ⟨info, rfl⟩
    rw [List.filterMap_cons, hinfo]
    dsimp only [Option.map_some']
    rw [List.map_cons, List.map_cons]
    rw [ih (fun x hx => h x (List.mem_cons.mpr (Or.inr hx)))]
    rfl

lemma no_inbound_of_none (ks : List Str) (pid : Str)
    (hinj : ∀ x ∈ ks, makeNodeId x = pid → False) :
    (ks.filterMap (fun p' => (parentPath p').map (fun q' => mkEdge q' p'))).filter
      (fun e => e.target == pid) = [] := by
  induction ks with
  | nil => rfl
  | cons p' rest ih =>
    rw [List.filterMap_cons]
    cases hpp : parentPath p' with
    | none =>
      exact ih (fun x hx => hinj x (List.mem_cons.mpr (Or.inr hx)))
    | some q' =>
      dsimp only [Option.map_some']
      rw [List.filter_cons]
      rw [if_neg ?_]
      · exact ih (fun x hx => hinj x (List.mem_cons.mpr (Or.inr hx)))
      · intro hbeq
        have : makeNodeId p' = pid := eq_of_beq hbeq
        exact hinj p' (List.mem_cons_self _ _) this

lemma unique_inbound_filter (ks : List Str) (p q : Str) (hnd : ks.Nodup) (hp : p ∈ ks)
    (hq : parentPath p = some q)
    (hinj : ∀ x ∈ ks, makeNodeId x = makeNodeId p → x = p) :
    (ks.filterMap (fun p' => (parentPath p').map (fun q' => mkEdge q' p'))).filter
      (fun e => e.target == makeNodeId p) = [mkEdge q p] := by
  induction ks with
  | nil => simp at hp
  | cons h0 rest ih =>
    rw [List.filterMap_cons]
    rcases List.mem_cons.mp hp with rfl | hp
    · rw [hq]
      dsimp only [Option.map_some']
      rw [List.filter_cons, if_pos (by exact beq_self_eq_true _)]
      have hnotin : p ∉ rest := (List.nodup_cons.mp hnd).1
      rw [no_inbound_of_none rest (makeNodeId p) ?_]
      · intro x hx hmk
        have hxp := hinj x (List.mem_cons.mpr (Or.inr hx)) hmk
        subst hxp
        exact hnotin hx
    · have hne : h0 ≠ p := by
        intro he
        subst he
        exact (List.nodup_cons.mp hnd).1 hp
      have htail := ih (List.nodup_cons.mp hnd).2 hp
        (fun x hx => hinj x (List.mem_cons.mpr (Or.inr hx)))
      cases hpp : parentPath h0 with
      | none => exact htail
      | some q0 =>
        dsimp only [Option.map_some']
        rw [List.filter_cons, if_neg ?_]
        · exact htail
        · intro hbeq
          have : makeNodeId h0 = makeNodeId p := eq_of_beq hbeq
          exact hne (hinj h0 (List.mem_cons_self _ _) this)

lemma assemble_unique_inbound (ru : URL) (RH : Str) (M : PageMap)
    (hnd : (mapKeys M).Nodup)
    (hclosed : ∀ p q, p ∈ mapKeys M → parentPath p = some q → q ∈ mapKeys M)
    (n : FlowNode) (q : Str)
    (hids : ((assemble ru RH M).nodes.map (fun x => x.id)).Nodup)
    (hn : n ∈ (assemble ru RH M).nodes)
    (hq : parentPath n.path = some q) :
    makeNodeId q ∈ (assemble ru RH M).nodes.map (fun x => x.id) ∧
    (assemble ru RH M).edges.filter (fun e => e.target == n.id) = [mkEdge q n.path] := by
  unfold assemble at hids hn ⊢
  by_cases hlen : (mapKeys M).length = 1
  · rw [if_pos hlen] at hn
    have hpath : n.path = ['/'] := by
      simp only [emptyFallback, List.mem_cons, List.mem_singleton, List.not_mem_nil,
        or_false] at hn
      rcases hn with rfl | rfl
      · rfl
      · rfl
    rw [hpath] at hq
    rw [show parentPath ['/'] = none from rfl] at hq
    exact absurd hq (by simp)
  · rw [if_neg hlen] at hids hn ⊢
    dsimp only at hids hn ⊢
    have hsome : ∀ p ∈ mapKeys M, (mapGet M p).isSome = true :=
      fun p hp => (mapGet_isSome_iff_mem M p).mpr hp
    obtain ⟨p, hpks, hmapped⟩ := List.mem_filterMap.mp hn
    obtain ⟨info, hinfo, hmk⟩ := Option.map_eq_some'.mp hmapped
    have hpath : n.path = p := by
      rw [← hmk]
      rfl
    have hid : n.id = makeNodeId p := by
      rw [← hmk]
      rfl
    have hidsK : ((mapKeys M).map makeNodeId).Nodup := by
      rw [← nodes_map_id ru M (mapKeys M) hsome]
      exact hids
    have hqp : parentPath p = some q := by
      rw [← hpath]
      exact hq
    have hqK : q ∈ mapKeys M := hclosed p q hpks hqp
    constructor
    · rw [nodes_map_id ru M (mapKeys M) hsome]
      exact List.mem_map.mpr ⟨q, hqK, rfl⟩
    · rw [hpath, hid]
      refine unique_inbound_filter (mapKeys M) p q hnd hpks hqp ?_
      exact fun x hx hmkx => List.inj_on_of_nodup_map hidsK hx hpks hmkx

/-- C4 (amended): provided no two registered paths sanitize to the same
node id (the sanitization `makeNodeId` is not injective in general), every
output node whose path has a syntactic parent has that parent present as a
node and exactly one inbound edge, sourced at the parent's node. -/
theorem crawl_unique_inbound_edge (env : CrawlEnv) (d : Str) (md : Int) (fuel : Nat)
    (g : CrawlResult) (n : FlowNode) (q : Str)
    (hg : crawlDomain env d md fuel = some g)
    (hids : (g.nodes.map (fun x => x.id)).Nodup)
    (hn : n ∈ g.nodes)
    (hq : parentPath n.path = some q) :
    makeNodeId q ∈ g.nodes.map (fun x => x.id) ∧
    g.edges.filter (fun e => e.target == n.id) = [mkEdge q n.path] := by
  obtain ⟨rootUrl, rfl⟩ := crawlDomain_inv hg
  exact assemble_unique_inbound rootUrl
    (runDiscovery env rootUrl (min (max 1 md) (MAX_DEPTH : Int)).toNat fuel).rootHost
    (reconcile
      (runDiscovery env rootUrl (min (max 1 md) (MAX_DEPTH : Int)).toNat fuel).rootHost
      rootUrl
      (runDiscovery env rootUrl (min (max 1 md) (MAX_DEPTH : Int)).toNat fuel).pages)
    (reconcile_keys_nodup _ _ _ (nodup_keys_runDiscovery env rootUrl _ fuel))
    (fun p q' hp hq' => reconcile_parent_closed _ _ _ hp hq')
    n q hids hn hq

/-- C3 (amended): no two output nodes share a path, except in the
degenerate root-only fallback (node ids `root` and `node-empty`), whose
synthetic child reuses the root's path `/`. -/
theorem output_paths_nodup_unless_fallback (env : CrawlEnv) (d : Str) (md : Int)
    (fuel : Nat) (g : CrawlResult)
    (hg : crawlDomain env d md fuel = some g) :
    (g.nodes.map (fun n => n.path)).Nodup ∨
      g.nodes.map (fun n => n.id) = ["root".toList, "node-empty".toList] := by
  obtain ⟨rootUrl, rfl⟩ := crawlDomain_inv hg
  show ((assemble rootUrl _ _).nodes.map (fun n => n.path)).Nodup ∨
    (assemble rootUrl _ _).nodes.map (fun n => n.id) =
      ["root".toList, "node-empty".toList]
  unfold assemble
  by_cases hlen : (mapKeys (reconcile
      (runDiscovery env rootUrl (min (max 1 md) (MAX_DEPTH : Int)).toNat fuel).rootHost
      rootUrl
      (runDiscovery env rootUrl (min (max 1 md) (MAX_DEPTH : Int)).toNat fuel).pages)).length = 1
  · rw [if_pos hlen]
    right
    rfl
  · rw [if_neg hlen]
    left
    dsimp only
    have hsome : ∀ p ∈ mapKeys (reconcile
        (runDiscovery env rootUrl (min (max 1 md) (MAX_DEPTH : Int)).toNat fuel).rootHost
        rootUrl
        (runDiscovery env rootUrl (min (max 1 md) (MAX_DEPTH : Int)).toNat fuel).pages),
        (mapGet (reconcile
          (runDiscovery env rootUrl (min (max 1 md) (MAX_DEPTH : Int)).toNat fuel).rootHost
          rootUrl
          (runDiscovery env rootUrl (min (max 1 md) (MAX_DEPTH : Int)).toNat fuel).pages) p).isSome = true :=
      fun p hp => (mapGet_isSome_iff_mem _ p).mpr hp
    rw [nodes_map_path rootUrl _ _ hsome]
    exact reconcile_keys_nodup _ _ _ (nodup_keys_runDiscovery env rootUrl _ fuel)

/-- Witness for C3: the two-page crawl output has pairwise-distinct node
paths. -/
theorem output_paths_nodup_unless_fallback_witness :
    (gTitle.nodes.map (fun n => n.path)).Nodup ∨
      gTitle.nodes.map (fun n => n.id) = ["root".toList, "node-empty".toList] :=
  output_paths_nodup_unless_fallback envTitle exDomain 1 10 gTitle (by rfl)

/-- Witness for C4: in the two-page crawl output the `/x` node has its
parent `root` present and exactly one inbound edge from it. -/
theorem crawl_unique_inbound_edge_witness :
    makeNodeId ['/'] ∈ gTitle.nodes.map (fun x => x.id) ∧
    gTitle.edges.filter (fun e => e.target == exChildNode.id) =
      [mkEdge ['/'] exChildNode.path] :=
  crawl_unique_inbound_edge envTitle exDomain 1 10 gTitle exChildNode ['/']
    (by rfl) (by decide) (by decide) (by decide)
/-! ## Counterexample theorems -/

/-- C1 counterexample: when the very first fetch of the root URL fails with
HTTP 404, `crawlDomain` does not fail the operation — it returns the
two-node fallback graph, so a graph IS returned to the caller. -/
theorem crawl_returns_graph_on_root_404 :
    crawlDomain envRoot404 exDomain 1 10 = some (emptyFallback exHost) := by decide

/-- C2 counterexample: with depth limit 1, the sitemap-seeded page `/a/b/c`
(depth 3) is registered and appears as an output node, together with its
synthesized depth-2 ancestor. -/
theorem sitemap_seed_exceeds_depth :
    (crawlDomain envSitemapDeep exDomain 1 10).map
        (fun g => g.nodes.map (fun n => (n.path, (pathSegments n.path).length))) =
      some [(['/'], 0), ("/a/b/c".toList, 3), ("/a/b".toList, 2), ("/a".toList, 1)] := by
  decide

/-- C3 counterexample: in the degenerate crawl the output holds two nodes
(ids `root` and `node-empty`) that both carry the path `/`. -/
theorem fallback_duplicates_root_path :
    (crawlDomain envNoLinks exDomain 1 10).map
        (fun g => g.nodes.map (fun n => (n.id, n.path))) =
      some [("root".toList, ['/']), ("node-empty".toList, ['/'])] := by decide

/-- C4 counterexample: the paths `/a/b` and `/a-b` sanitize to the same node
id `node--a-b`, so the output carries duplicate node ids. -/
theorem node_ids_collide :
    (crawlDomain envCollide exDomain 2 10).map (fun g => g.nodes.map (fun n => n.id)) =
      some ["root".toList, "node--a-b".toList, "node--a-b".toList, "node--a".toList] := by
  decide

/-- C5 counterexample: the ancestor entry synthesized for `/a` carries
status code 404, not an absent status code. -/
theorem placeholder_carries_status_404 :
    (crawlDomain envSitemapDeep exDomain 1 10).map
        (fun g => g.nodes.filterMap (fun n =>
          if n.path = "/a".toList then some (n.statusCode, n.unreachable) else none)) =
      some [(some 404, some true)] := by decide

/-- C6 counterexample: after a successful 200 fetch of the root with title
`Hello`, the root's registry entry carries the title but no status code. -/
theorem success_fetch_records_no_status :
    (crawlDomain envTitle exDomain 1 10).map
        (fun g => g.nodes.filterMap (fun n =>
          if n.path = ['/'] then some (n.label, n.statusCode) else none)) =
      some [("Hello".toList, none)] := by decide

set_option maxRecDepth 40000 in
/-- C8 counterexample: a sitemap listing 80 distinct same-host pages plus
the root yields 81 registered pages — the budget of 80 is exceeded because
the sitemap list is truncated to `MAX_PAGES`, not to the remaining budget. -/
theorem registry_exceeds_budget :
    (crawlDomain envBig exDomain 1 10).map (fun g => g.nodes.length) = some 81 := by decide
